import Mathlib

/-!
# hideproc (quiz1/main.c): hidden-PID registry, filtered lookup and control channel

A shallow embedding of `src/quiz1/main.c`.

* The registry `hidden_proc` (a kernel `list_head` of `pid_node_t`) is the list of
  the `id` fields of its nodes, head first.
* `pid_t` and `int` are 32-bit signed, `long`, `loff_t` and `ssize_t` 64-bit signed;
  values are `Int`, and every conversion to a 32-bit type is written `wrap32`.
* Bytes are natural numbers (ASCII codes); a payload is the list of the `len` bytes
  of the user buffer.
* `kmalloc`, `copy_from_user` and `copy_to_user` are taken to succeed (the source
  ignores their results).
* The tracing subsystem is a state (filter, active, calls made) on which each external
  call returns a value chosen by the environment; a call that fails changes no state.
-/

namespace Hideproc

/-! ## Machine integers -/

def INT_MIN : Int := -2147483648

def INT_MAX : Int := 2147483647

/-- Conversion of an integer to a 32-bit signed integer (two's complement). -/
def wrap32 (x : Int) : Int := (x + 2147483648) % 4294967296 - 2147483648

/-- The value of `enum RETURN_CODE { SUCCESS }`. -/
def SUCCESS : Int := 0

/-- The errno `EAGAIN` of the kernel headers. -/
def EAGAIN : Int := 11

/-! ## Registry operations -/

/-- Embedding of `is_hidden_proc`: walk the list, return true at the first node whose id is `pid`. -/
def is_hidden_proc : List Int → Int → Bool
  | [], _ => false
  | proc :: rest, pid => if proc = pid then true else is_hidden_proc rest pid

/-- Embedding of `hide_process`: allocate a node and `list_add_tail` it; the result is
the return value and the new registry. -/
def hide_process (pid : Int) (hidden_proc : List Int) : Int × List Int :=
  (SUCCESS, hidden_proc ++ [pid])

/-- The loop of `unhide_process`: every node whose id is `pid` is unlinked and freed. -/
def unhide_loop (pid : Int) : List Int → List Int
  | [] => []
  | proc :: rest => if pid = proc then unhide_loop pid rest else proc :: unhide_loop pid rest

/-- Embedding of `unhide_process`: the return value and the new registry. -/
def unhide_process (pid : Int) (hidden_proc : List Int) : Int × List Int :=
  (SUCCESS, unhide_loop pid hidden_proc)

/-! ## The replacement lookup -/

/-- One step of the scan of the live PIDs: keep the smaller of the best PID so far and
`p`, when `p` is at least `nr`. -/
def find_ge_pid_step (nr : Int) (best : Option Int) (p : Int) : Option Int :=
  if nr ≤ p then
    match best with
    | none => some p
    | some b => if p < b then some p else some b
  else best

/-- The kernel's `find_ge_pid` over a finite collection of live PIDs: the least live
PID that is at least `nr`, if there is one. A `struct pid *` is represented by its
number `numbers->nr`, the null pointer by `none`. -/
def find_ge_pid (live : List Int) (nr : Int) : Option Int :=
  live.foldl (find_ge_pid_step nr) none

/-- What the claim assumes of the original lookup: `r` is the least element of `S`
that is at least `n`, or `none` when `S` has no such element. -/
def LeastGe (S : Int → Prop) (n : Int) (r : Option Int) : Prop :=
  match r with
  | none => ∀ q, S q → q < n
  | some p => S p ∧ n ≤ p ∧ ∀ q, S q → n ≤ q → p ≤ q

/-- The `while` loop of `hook_find_ge_pid`. `real` is the function behind the pointer
`real_find_ge_pid`, `pid` the current value of the local `pid`, `calls` the number of
calls to `real` made so far. The first argument bounds the number of evaluations of
the loop condition; `none` means that bound was reached. -/
def hook_find_ge_pid_loop (real : Int → Option Int) (hidden_proc : List Int) :
    Nat → Option Int → Nat → Option (Option Int × Nat)
  | 0, _, _ => none
  | fuel + 1, pid, calls =>
    match pid with
    | none => some (none, calls)
    | some nr =>
      if is_hidden_proc hidden_proc nr then
        hook_find_ge_pid_loop real hidden_proc fuel (real (wrap32 (nr + 1))) (calls + 1)
      else some (some nr, calls)

/-- Embedding of `hook_find_ge_pid` together with the number of calls it makes to the
original lookup. -/
def hook_find_ge_pid_calls (real : Int → Option Int) (hidden_proc : List Int)
    (fuel : Nat) (nr : Int) : Option (Option Int × Nat) :=
  hook_find_ge_pid_loop real hidden_proc fuel (real nr) 1

/-- Embedding of `hook_find_ge_pid`: the returned `struct pid *`. -/
def hook_find_ge_pid (real : Int → Option Int) (hidden_proc : List Int)
    (fuel : Nat) (nr : Int) : Option (Option Int) :=
  (hook_find_ge_pid_calls real hidden_proc fuel nr).map Prod.fst

/-! ## Decimal text: `sprintf("%d")` and `kstrtol` -/

/-- Decimal digits of `n` as ASCII codes, most significant first. The first argument
bounds the number of digits produced; `n + 1` is always enough. -/
def dec_digits : Nat → Nat → List Nat
  | 0, _ => []
  | fuel + 1, n => if n < 10 then [48 + n] else dec_digits fuel (n / 10) ++ [48 + n % 10]

/-- The text `%d` produces for an `int`: a minus sign for a negative value, then the
digits of the magnitude. -/
def fmt_d (x : Int) : List Nat :=
  if x < 0 then 45 :: dec_digits (x.natAbs + 1) x.natAbs else dec_digits (x.natAbs + 1) x.natAbs

/-- The macro `OUTPUT_BUFFER_FORMAT`, the bytes of `pid: %d\n` without the final NUL. -/
def OUTPUT_BUFFER_FORMAT : List Nat := [112, 105, 100, 58, 32, 37, 100, 10]

/-- The macro `MAX_MESSAGE_SIZE`: `sizeof(OUTPUT_BUFFER_FORMAT) + 4`, where `sizeof`
counts the final NUL of the string literal. -/
def MAX_MESSAGE_SIZE : Nat := (OUTPUT_BUFFER_FORMAT.length + 1) + 4

/-- The characters `sprintf` produces for a format whose only conversion is `%d`,
applied to the `int` argument `x` (the final NUL is not included). -/
def sprintf_d : List Nat → Int → List Nat
  | [], _ => []
  | [c], _ => [c]
  | c :: d :: rest, x =>
    if c = 37 ∧ d = 100 then fmt_d x ++ sprintf_d rest x else c :: sprintf_d (d :: rest) x

/-- The kernel's `strlen` on the bytes of an array: the number of bytes before the first NUL. -/
def strlen (s : List Nat) : Nat := (s.takeWhile (fun c => c != 0)).length

/-- The kernel's `_parse_integer` for base 10: consume leading decimal digits,
accumulating the value in `res` and the digit count in `rv`; the result also holds
the unconsumed rest. The 64-bit overflow check is made by the caller on the exact value. -/
def parse_integer : List Nat → Nat → Nat → Nat × Nat × List Nat
  | [], res, rv => (res, rv, [])
  | c :: s, res, rv =>
    if 48 ≤ c ∧ c ≤ 57 then parse_integer s (res * 10 + (c - 48)) (rv + 1)
    else (res, rv, c :: s)

/-- The kernel's `_kstrtoull` for base 10 on the characters of a C string: fails on
overflow of `unsigned long long` (`-ERANGE`), on no digit (`-EINVAL`) and on anything
after the digits other than a single newline (`-EINVAL`). -/
def kstrtoull_core (s : List Nat) : Option Nat :=
  match parse_integer s 0 0 with
  | (res, rv, rest) =>
    if 18446744073709551616 ≤ res then none
    else if rv = 0 then none
    else if rest = [] ∨ rest = [10] then some res
    else none

/-- The kernel's `kstrtol` for base 10 with a 64-bit `long`, on the characters of a
C string. `none` stands for any negative return value, in which case `*res` is not
written. A leading `-` negates, a leading `+` is skipped. -/
def kstrtol (s : List Nat) : Option Int :=
  match s with
  | 45 :: t =>
    match kstrtoull_core t with
    | none => none
    | some tmp => if 9223372036854775808 < tmp then none else some (-(tmp : Int))
  | 43 :: t =>
    match kstrtoull_core t with
    | none => none
    | some tmp => if 9223372036854775808 ≤ tmp then none else some (tmp : Int)
  | _ =>
    match kstrtoull_core s with
    | none => none
    | some tmp => if 9223372036854775808 ≤ tmp then none else some (tmp : Int)

/-! ## The reporting interface -/

/-- User memory seen from the pointer `buffer`: the byte stored at each offset. -/
abbrev UserMem := Int → Nat

/-- The kernel's `copy_to_user(buffer + dst, src, |src|)`. -/
def copy_to_user (user : UserMem) (dst : Int) (src : List Nat) : UserMem :=
  fun a => if dst ≤ a ∧ a < dst + src.length then src.getD (a - dst).toNat 0 else user a

/-- How a call of `device_read` ends. -/
inductive ReadOutcome where
  /-- Normal return: the returned value, user memory and `*offset`. -/
  | ret (value : Int) (user : UserMem) (offset : Int)
  /-- `sprintf` wrote past the end of the array `message`; user memory and `*offset`
  are those reached before that call. -/
  | overrun (user : UserMem) (offset : Int)

/-- The user memory a call of `device_read` leaves behind. -/
def ReadOutcome.user_mem : ReadOutcome → UserMem
  | ReadOutcome.ret _ user _ => user
  | ReadOutcome.overrun user _ => user

/-- The loop of `device_read` over the registry nodes still to visit. -/
def device_read_loop : List Int → UserMem → Int → ReadOutcome
  | [], user, offset => ReadOutcome.ret offset user offset
  | proc :: rest, user, offset =>
    let text := sprintf_d OUTPUT_BUFFER_FORMAT proc
    if MAX_MESSAGE_SIZE < text.length + 1 then ReadOutcome.overrun user offset
    else
      let message := text ++ List.replicate (MAX_MESSAGE_SIZE - text.length) 0
      let n := strlen message
      device_read_loop rest (copy_to_user user offset (message.take n)) (offset + n)

/-- Embedding of `device_read`; `len` is not used by the source. -/
def device_read (hidden_proc : List Int) (user : UserMem) (_len : Nat) (offset : Int) :
    ReadOutcome :=
  if offset ≠ 0 then ReadOutcome.ret 0 user offset
  else device_read_loop hidden_proc user offset

/-! ## The command handler -/

/-- What `device_write` depends on besides its arguments and the registry. -/
structure Env where
  /-- The process table as `get_ppid` sees it: the PID of `real_parent` of the task
  with the given PID, `none` when `find_get_pid` or `get_pid_task` yields NULL. -/
  parent : Int → Option Int
  /-- The indeterminate initial value of the local `long pid`. -/
  pid0 : Int
  /-- The bytes stored after the `len + 1` bytes allocated for `message`. -/
  beyond : List Nat

/-- Embedding of `get_ppid`: `find_get_pid` takes an `int`, so `cpid` is converted;
`none` is the NULL dereference `child->real_parent`. -/
def get_ppid (env : Env) (cpid : Int) : Option Int := env.parent (wrap32 cpid)

/-- The array `add_message` without its final NUL. -/
def add_message : List Nat := [97, 100, 100]

/-- The array `del_message` without its final NUL. -/
def del_message : List Nat := [100, 101, 108]

/-- How a call of `device_write` ends. -/
inductive WriteOutcome where
  /-- Normal return: the returned value, the registry and `*offset`. -/
  | ret (value : Int) (hidden_proc : List Int) (offset : Int)
  /-- NULL dereference in `get_ppid`; the registry is the one in memory at that point. -/
  | oops (hidden_proc : List Int)
  deriving DecidableEq

/-- The C string that starts at `message + at`: the bytes up to the first NUL, read
from the `len + 1` bytes of `message` followed by what lies after them. -/
def cstr_at (env : Env) (message : List Nat) (pos : Nat) : List Nat :=
  ((message ++ env.beyond).drop pos).takeWhile (fun c => c != 0)

/-- Embedding of `device_write` on the payload `buffer` (its length is `len`). -/
def device_write (env : Env) (hidden_proc : List Int) (buffer : List Nat) (offset : Int) :
    WriteOutcome :=
  let len := buffer.length
  if len < (add_message.length + 1) - 1 ∧ len < (del_message.length + 1) - 1 then
    WriteOutcome.ret (-EAGAIN) hidden_proc offset
  else
    let message := buffer ++ [0]
    if message.take ((add_message.length + 1) - 1) = add_message then
      let pid := (kstrtol (cstr_at env message (add_message.length + 1))).getD env.pid0
      let r1 := (hide_process (wrap32 pid) hidden_proc).2
      match get_ppid env pid with
      | none => WriteOutcome.oops r1
      | some ppid => WriteOutcome.ret len (hide_process ppid r1).2 len
    else if message.take ((del_message.length + 1) - 1) = del_message then
      let pid := (kstrtol (cstr_at env message (del_message.length + 1))).getD env.pid0
      let r1 := (unhide_process (wrap32 pid) hidden_proc).2
      match get_ppid env pid with
      | none => WriteOutcome.oops r1
      | some ppid => WriteOutcome.ret len (unhide_process ppid r1).2 len
    else WriteOutcome.ret (-EAGAIN) hidden_proc offset

/-- The payload `add <pid>`: the prefix, a space and the decimal text of `P`. -/
def add_cmd (P : Int) : List Nat := add_message ++ [32] ++ fmt_d P

/-- The payload `del <pid>`: the prefix, a space and the decimal text of `P`. -/
def del_cmd (P : Int) : List Nat := del_message ++ [32] ++ fmt_d P

/-- The line `device_read` emits for one registry entry. -/
def pid_line (p : Int) : List Nat := sprintf_d OUTPUT_BUFFER_FORMAT p

/-- Whether the line for `p` and its final NUL fit in `message`. -/
def fits (p : Int) : Bool := decide ((pid_line p).length + 1 ≤ MAX_MESSAGE_SIZE)

/-- The snapshot the claims describe: the lines of the entries, concatenated in
registry order. -/
def snapshot (hidden_proc : List Int) : List Nat := (hidden_proc.map pid_line).flatten

/-! ## The run of hidden PIDs a lookup skips -/

/-- The live PIDs in increasing order, each once. -/
def live_sorted (live : List Int) : List Int :=
  (live.dedup).insertionSort (fun a b => a ≤ b)

/-- The consecutive live PIDs, starting from the first live PID that is at least `n`,
that are members of the registry. -/
def hidden_run (live hidden_proc : List Int) (n : Int) : List Int :=
  ((live_sorted live).dropWhile (fun p => decide (p < n))).takeWhile
    (fun p => decide (p ∈ hidden_proc))

/-- The first live PID after the run of hidden ones, if there is one. -/
def first_visible (live hidden_proc : List Int) (n : Int) : Option Int :=
  (((live_sorted live).dropWhile (fun p => decide (p < n))).dropWhile
    (fun p => decide (p ∈ hidden_proc))).head?

/-! ## The hook descriptor and the tracing subsystem -/

/-- The errno `ENOENT` of the kernel headers. -/
def ENOENT : Int := 2

/-- The flags `hook_install` stores in `ops.flags`. -/
inductive OpsFlag where
  | SAVE_REGS
  | RECURSION_SAFE
  | IPMODIFY
  deriving DecidableEq

/-- Embedding of `struct ftrace_hook`. Addresses and function pointers are natural
numbers, `orig` is the content of the slot the pointer `orig` refers to (the variable
`real_find_ge_pid`), and of `ops` the two fields the source writes are kept. -/
structure ftrace_hook where
  name : List Nat
  func : Nat
  orig : Nat
  address : Nat
  /-- Whether `ops.func` is `hook_ftrace_thunk`. -/
  ops_func_set : Bool
  ops_flags : List OpsFlag
  deriving DecidableEq

/-- Embedding of `hook_resolve_addr`; `lookup` is the kernel's `kallsyms_lookup_name`,
which returns 0 for a name it does not know. The result is the return value and the
descriptor. -/
def hook_resolve_addr (lookup : List Nat → Nat) (hook : ftrace_hook) : Int × ftrace_hook :=
  let hook1 := { hook with address := lookup hook.name }
  if hook1.address = 0 then (-ENOENT, hook1)
  else (0, { hook1 with orig := hook1.address })

/-- A call into the tracing subsystem. -/
inductive FtraceCall where
  | set_filter_ip (ip : Nat) (remove : Int) (reset : Int)
  | register_function
  | unregister_function
  deriving DecidableEq

/-- The tracing subsystem as far as the hook's `ops` are concerned: the addresses in
its filter, whether it is registered (interception active), and the calls made so far. -/
structure Ftrace where
  filter : List Nat
  active : Bool
  calls : List FtraceCall
  deriving DecidableEq

/-- The kernel's `ftrace_set_filter_ip` over the model. `outcome k` is the value the
call numbered `k` returns; a call that returns non-zero changes nothing but the call
record, a call that returns 0 adds `ip` to the filter or, in remove mode, takes it out. -/
def ftrace_set_filter_ip (outcome : Nat → Int) (ft : Ftrace) (ip : Nat) (remove reset : Int) :
    Int × Ftrace :=
  let err := outcome ft.calls.length
  let calls := ft.calls ++ [FtraceCall.set_filter_ip ip remove reset]
  if err ≠ 0 then (err, { ft with calls := calls })
  else
    let base := if reset ≠ 0 then [] else ft.filter
    (0, { ft with
          filter := if remove ≠ 0 then base.filter (fun a => decide (a ≠ ip)) else base ++ [ip],
          calls := calls })

/-- The kernel's `register_ftrace_function` over the model: on success the
interception is active. -/
def register_ftrace_function (outcome : Nat → Int) (ft : Ftrace) : Int × Ftrace :=
  let err := outcome ft.calls.length
  let calls := ft.calls ++ [FtraceCall.register_function]
  if err ≠ 0 then (err, { ft with calls := calls })
  else (0, { ft with active := true, calls := calls })

/-- The kernel's `unregister_ftrace_function` over the model: on success the
interception is no longer active. -/
def unregister_ftrace_function (outcome : Nat → Int) (ft : Ftrace) : Int × Ftrace :=
  let err := outcome ft.calls.length
  let calls := ft.calls ++ [FtraceCall.unregister_function]
  if err ≠ 0 then (err, { ft with calls := calls })
  else (0, { ft with active := false, calls := calls })

/-- Embedding of `hook_install`: the return value, the descriptor and the tracing
subsystem afterwards. The `printk` calls have no effect on either. -/
def hook_install (lookup : List Nat → Nat) (outcome : Nat → Int) (hook : ftrace_hook)
    (ft : Ftrace) : Int × ftrace_hook × Ftrace :=
  match hook_resolve_addr lookup hook with
  | (err, hook1) =>
    if err ≠ 0 then (err, hook1, ft)
    else
      let hook2 := { hook1 with
        ops_func_set := true,
        ops_flags := [OpsFlag.SAVE_REGS, OpsFlag.RECURSION_SAFE, OpsFlag.IPMODIFY] }
      match ftrace_set_filter_ip outcome ft hook2.address 0 0 with
      | (err1, ft1) =>
        if err1 ≠ 0 then (err1, hook2, ft1)
        else
          match register_ftrace_function outcome ft1 with
          | (err2, ft2) =>
            if err2 ≠ 0 then
              (err2, hook2, (ftrace_set_filter_ip outcome ft2 hook2.address 1 0).2)
            else (0, hook2, ft2)

/-- Embedding of `hook_remove` (a `void` function): the tracing subsystem afterwards.
Both results only select a `printk`. -/
def hook_remove (outcome : Nat → Int) (hook : ftrace_hook) (ft : Ftrace) : Ftrace :=
  let r1 := unregister_ftrace_function outcome ft
  let r2 := ftrace_set_filter_ip outcome r1.2 hook.address 1 0
  r2.2

/-- The saved register state `struct pt_regs`: the instruction pointer and, in the
order of the structure, all its other members. -/
structure pt_regs where
  ip : Nat
  others : List Nat
  deriving DecidableEq

/-- Embedding of `hook_ftrace_thunk`; `within_module a` is the kernel's
`within_module(a, THIS_MODULE)` and `hook` the descriptor `container_of` recovers
from `ops`. The result is the register state afterwards. -/
def hook_ftrace_thunk (within_module : Nat → Bool) (_ip parent_ip : Nat) (hook : ftrace_hook)
    (regs : pt_regs) : pt_regs :=
  if !within_module parent_ip then { regs with ip := hook.func } else regs

/-! ## Registry lemmas -/

theorem is_hidden_proc_iff (hidden_proc : List Int) (pid : Int) :
    is_hidden_proc hidden_proc pid = true ↔ pid ∈ hidden_proc := by
  induction hidden_proc with
  | nil => simp [is_hidden_proc]
  | cons proc rest ih =>
    by_cases h : proc = pid
    · simp [is_hidden_proc, h]
    · have h2 : ¬ pid = proc := fun e => h e.symm
      simp [is_hidden_proc, h, h2, ih]

theorem is_hidden_proc_false_iff (hidden_proc : List Int) (pid : Int) :
    is_hidden_proc hidden_proc pid = false ↔ pid ∉ hidden_proc := by
  rw [← is_hidden_proc_iff]; simp

theorem unhide_loop_eq_filter (pid : Int) (hidden_proc : List Int) :
    unhide_loop pid hidden_proc = hidden_proc.filter (fun x => decide (x ≠ pid)) := by
  induction hidden_proc with
  | nil => rfl
  | cons proc rest ih =>
    by_cases h : pid = proc
    · subst h; simp [unhide_loop, ih]
    · have h2 : ¬ proc = pid := fun e => h e.symm
      simp [unhide_loop, h, h2, ih]

/-! ## The original lookup -/

theorem find_ge_pid_step_spec (nr : Int) (seen : List Int) (best : Option Int) (a : Int)
    (hbest : LeastGe (fun p => p ∈ seen) nr best) :
    LeastGe (fun p => p ∈ seen ++ [a]) nr (find_ge_pid_step nr best a) := by
  unfold find_ge_pid_step
  by_cases ha : nr ≤ a
  · rw [if_pos ha]
    cases best with
    | none =>
      simp only [LeastGe] at hbest ⊢
      refine ⟨by simp, ha, ?_⟩
      intro q hq hnq
      rcases List.mem_append.1 hq with h | h
      · have := hbest q h; omega
      · simp at h; omega
    | some b =>
      simp only [LeastGe] at hbest
      obtain ⟨hb1, hb2, hb3⟩ := hbest
      by_cases hab : a < b
      · simp only [if_pos hab, LeastGe]
        refine ⟨by simp, ha, ?_⟩
        intro q hq hnq
        rcases List.mem_append.1 hq with h | h
        · have := hb3 q h hnq; omega
        · simp at h; omega
      · simp only [if_neg hab, LeastGe]
        refine ⟨List.mem_append.2 (Or.inl hb1), hb2, ?_⟩
        intro q hq hnq
        rcases List.mem_append.1 hq with h | h
        · exact hb3 q h hnq
        · simp at h; omega
  · rw [if_neg ha]
    cases best with
    | none =>
      simp only [LeastGe] at hbest ⊢
      intro q hq
      rcases List.mem_append.1 hq with h | h
      · exact hbest q h
      · simp at h; omega
    | some b =>
      simp only [LeastGe] at hbest ⊢
      obtain ⟨hb1, hb2, hb3⟩ := hbest
      refine ⟨List.mem_append.2 (Or.inl hb1), hb2, ?_⟩
      intro q hq hnq
      rcases List.mem_append.1 hq with h | h
      · exact hb3 q h hnq
      · simp at h; omega

theorem find_ge_pid_foldl_spec (nr : Int) (live : List Int) (seen : List Int) (best : Option Int)
    (hbest : LeastGe (fun p => p ∈ seen) nr best) :
    LeastGe (fun p => p ∈ seen ++ live) nr (live.foldl (find_ge_pid_step nr) best) := by
  induction live generalizing seen best with
  | nil => simpa using hbest
  | cons a rest ih =>
    have := ih (seen ++ [a]) _ (find_ge_pid_step_spec nr seen best a hbest)
    simpa [List.foldl_cons, List.append_assoc] using this

/-- The model `find_ge_pid` returns the least live PID that is at least `nr`. -/
theorem find_ge_pid_spec (live : List Int) (nr : Int) :
    LeastGe (fun p => p ∈ live) nr (find_ge_pid live nr) := by
  have h := find_ge_pid_foldl_spec nr live [] none (by simp [LeastGe])
  simpa [find_ge_pid] using h

theorem wrap32_of_range (x : Int) (h1 : INT_MIN ≤ x) (h2 : x ≤ INT_MAX) : wrap32 x = x := by
  unfold INT_MIN at h1; unfold INT_MAX at h2; unfold wrap32; omega

/-- The loop of `hook_find_ge_pid` ends, and ends on the least live PID from `m` on
that is not hidden, whenever more evaluations are allowed than there are live PIDs
from `m` on. -/
theorem hook_find_ge_pid_loop_spec (live : List Int) (real : Int → Option Int)
    (hidden_proc : List Int)
    (hreal : ∀ m, LeastGe (fun p => p ∈ live) m (real m))
    (hrange : ∀ p ∈ live, INT_MIN ≤ p ∧ p < INT_MAX) :
    ∀ (k : Nat) (m : Int) (fuel calls : Nat),
      (live.filter (fun p => decide (m ≤ p))).length ≤ k → k < fuel →
      ∃ r c, hook_find_ge_pid_loop real hidden_proc fuel (real m) calls = some (r, c) ∧
        LeastGe (fun p => p ∈ live ∧ p ∉ hidden_proc) m r := by
  intro k
  induction k with
  | zero =>
    intro m fuel calls hk hfuel
    obtain ⟨f, rfl⟩ : ∃ f, fuel = f + 1 := ⟨fuel - 1, by omega⟩
    have hm := hreal m
    cases hr : real m with
    | none =>
      rw [hr] at hm
      refine ⟨none, calls, by simp [hook_find_ge_pid_loop], ?_⟩
      simp only [LeastGe] at hm ⊢
      intro q hq; exact hm q hq.1
    | some p =>
      rw [hr] at hm
      simp only [LeastGe] at hm
      have : p ∈ live.filter (fun p => decide (m ≤ p)) := by
        simp [List.mem_filter, hm.1, hm.2.1]
      have hpos := List.length_pos_of_mem this
      omega
  | succ k ih =>
    intro m fuel calls hk hfuel
    obtain ⟨f, rfl⟩ : ∃ f, fuel = f + 1 := ⟨fuel - 1, by omega⟩
    have hm := hreal m
    cases hr : real m with
    | none =>
      rw [hr] at hm
      refine ⟨none, calls, by simp [hook_find_ge_pid_loop], ?_⟩
      simp only [LeastGe] at hm ⊢
      intro q hq; exact hm q hq.1
    | some p =>
      rw [hr] at hm
      simp only [LeastGe] at hm
      obtain ⟨hp1, hp2, hp3⟩ := hm
      by_cases hh : is_hidden_proc hidden_proc p = true
      · have hw : wrap32 (p + 1) = p + 1 := by
          have := hrange p hp1
          apply wrap32_of_range <;> [skip; skip] <;> (unfold INT_MIN INT_MAX at *; omega)
        have hlen : (live.filter (fun q => decide (p + 1 ≤ q))).length ≤ k := by
          have hsub : (live.filter (fun q => decide (p + 1 ≤ q))).length
              < (live.filter (fun q => decide (m ≤ q))).length := by
            have e : live.filter (fun q => decide (p + 1 ≤ q))
                = (live.filter (fun q => decide (m ≤ q))).filter (fun q => decide (p + 1 ≤ q)) := by
              rw [List.filter_filter]
              apply List.filter_congr
              intro x _
              by_cases hx : p + 1 ≤ x
              · have : m ≤ x := by omega
                simp [hx, this]
              · simp [hx]
            rw [e]
            apply List.length_filter_lt_length_iff_exists.2
            exact ⟨p, by simp [List.mem_filter, hp1, hp2], by simp⟩
          omega
        obtain ⟨r, c, hrc, hspec⟩ := ih (p + 1) f (calls + 1) hlen (by omega)
        refine ⟨r, c, ?_, ?_⟩
        · simp only [hook_find_ge_pid_loop, hh, if_true, hw]
          exact hrc
        · have hmem : p ∈ hidden_proc := (is_hidden_proc_iff _ _).1 hh
          cases r with
          | none =>
            simp only [LeastGe] at hspec ⊢
            intro q hq
            have h1 := hspec q hq
            by_contra hcon
            have h2 := hp3 q hq.1 (by omega)
            have : q = p := by omega
            exact hq.2 (this ▸ hmem)
          | some x =>
            simp only [LeastGe] at hspec ⊢
            obtain ⟨hx1, hx2, hx3⟩ := hspec
            refine ⟨hx1, by omega, ?_⟩
            intro q hq hmq
            have h2 := hp3 q hq.1 hmq
            have hne : q ≠ p := fun e => hq.2 (e ▸ hmem)
            exact hx3 q hq (by omega)
      · refine ⟨some p, calls, ?_, ?_⟩
        · simp [hook_find_ge_pid_loop, hh]
        · have hnm : p ∉ hidden_proc := fun h => hh ((is_hidden_proc_iff _ _).2 h)
          simp only [LeastGe]
          exact ⟨⟨hp1, hnm⟩, hp2, fun q hq hmq => hp3 q hq.1 hmq⟩

/-- C1: when the original lookup returns the least live PID that is at least its
argument (or none), and live PIDs are `int` values below `INT_MAX`, `hook_find_ge_pid(n)`
returns, and returns the least live PID that is at least `n` and not in the registry
(none when there is no such PID); in particular it never returns a PID of the registry. -/
theorem hook_find_ge_pid_least_visible (live : List Int) (real : Int → Option Int)
    (hidden_proc : List Int) (n : Int) (fuel : Nat)
    (hreal : ∀ m, LeastGe (fun p => p ∈ live) m (real m))
    (hrange : ∀ p ∈ live, INT_MIN ≤ p ∧ p < INT_MAX)
    (hfuel : live.length < fuel) :
    ∃ r, hook_find_ge_pid real hidden_proc fuel n = some r ∧
      LeastGe (fun p => p ∈ live ∧ p ∉ hidden_proc) n r ∧
      ∀ P ∈ hidden_proc, n ≤ P → r ≠ some P := by
  obtain ⟨r, c, hrc, hspec⟩ :=
    hook_find_ge_pid_loop_spec live real hidden_proc hreal hrange live.length n fuel 1
      (List.length_filter_le _ _) hfuel
  refine ⟨r, ?_, hspec, ?_⟩
  · simp [hook_find_ge_pid, hook_find_ge_pid_calls, hrc]
  · intro P hP _ hrP
    rw [hrP] at hspec
    simp only [LeastGe] at hspec
    exact hspec.1.2 hP

theorem hook_find_ge_pid_least_visible_witness :
    hook_find_ge_pid (find_ge_pid [3, 5, 6, 9]) [5, 6] 5 4 = some (some 9) ∧
    ∃ r, hook_find_ge_pid (find_ge_pid [3, 5, 6, 9]) [5, 6] 5 4 = some r ∧
      LeastGe (fun p => p ∈ [3, 5, 6, 9] ∧ p ∉ [5, 6]) 4 r ∧
      ∀ P ∈ [5, 6], (4 : Int) ≤ P → r ≠ some P :=
  ⟨by decide,
    hook_find_ge_pid_least_visible [3, 5, 6, 9] (find_ge_pid [3, 5, 6, 9]) [5, 6] 4 5
      (find_ge_pid_spec [3, 5, 6, 9]) (by decide) (by decide)⟩

/-! ## Decimal text -/

theorem dec_digits_bytes (fuel n : Nat) : ∀ c ∈ dec_digits fuel n, 48 ≤ c ∧ c ≤ 57 := by
  induction fuel generalizing n with
  | zero => simp [dec_digits]
  | succ f ih =>
    intro c hc
    unfold dec_digits at hc
    by_cases h : n < 10
    · simp only [if_pos h, List.mem_singleton] at hc; omega
    · simp only [if_neg h, List.mem_append, List.mem_singleton] at hc
      rcases hc with hc | hc
      · exact ih _ c hc
      · omega

theorem dec_digits_cons (fuel n : Nat) :
    ∃ d t, dec_digits (fuel + 1) n = d :: t ∧ 48 ≤ d ∧ d ≤ 57 := by
  have hne : dec_digits (fuel + 1) n ≠ [] := by
    unfold dec_digits
    by_cases h : n < 10
    · simp [h]
    · simp [h]
  cases hd : dec_digits (fuel + 1) n with
  | nil => exact absurd hd hne
  | cons d t =>
    exact ⟨d, t, rfl, dec_digits_bytes (fuel + 1) n d (by simp [hd])⟩

theorem parse_integer_dec_digits (fuel : Nat) :
    ∀ (n : Nat), n < 10 ^ (fuel + 1) → ∀ (rest : List Nat) (acc rv : Nat),
      ∃ k, 0 < k ∧ parse_integer (dec_digits (fuel + 1) n ++ rest) acc rv
        = parse_integer rest (acc * 10 ^ k + n) (rv + k) := by
  induction fuel with
  | zero =>
    intro n hn rest acc rv
    have h : n < 10 := by simpa using hn
    refine ⟨1, by omega, ?_⟩
    have h1 : 48 ≤ 48 + n ∧ 48 + n ≤ 57 := by omega
    simp [dec_digits, h, parse_integer, h1]
  | succ f ih =>
    intro n hn rest acc rv
    by_cases h : n < 10
    · refine ⟨1, by omega, ?_⟩
      have h1 : 48 ≤ 48 + n ∧ 48 + n ≤ 57 := by omega
      have e : dec_digits (f + 1 + 1) n = [48 + n] := by
        rw [dec_digits]; simp [h]
      rw [e]
      simp [parse_integer, h1]
    · have hq : n / 10 < 10 ^ (f + 1) := by
        rw [pow_succ] at hn
        exact Nat.div_lt_of_lt_mul (by omega)
      obtain ⟨k, hk, hpk⟩ := ih (n / 10) hq ((48 + n % 10) :: rest) acc rv
      refine ⟨k + 1, by omega, ?_⟩
      have e : dec_digits (f + 1 + 1) n = dec_digits (f + 1) (n / 10) ++ [48 + n % 10] := by
        rw [dec_digits]; simp [h]
      rw [e, List.append_assoc, List.singleton_append, hpk]
      have h1 : 48 ≤ 48 + n % 10 ∧ 48 + n % 10 ≤ 57 := by omega
      have e2 : (acc * 10 ^ k + n / 10) * 10 + (48 + n % 10 - 48) = acc * 10 ^ (k + 1) + n := by
        have := Nat.div_add_mod n 10
        have e3 : 48 + n % 10 - 48 = n % 10 := by omega
        rw [e3, pow_succ]
        nlinarith
      rw [parse_integer]
      simp only [h1, and_self, if_true, e2, Nat.add_assoc]

theorem parse_integer_fmt_digits (n : Nat) :
    ∃ k, 0 < k ∧ parse_integer (dec_digits (n + 1) n) 0 0 = (n, k, []) := by
  have hn : n < 10 ^ (n + 1) :=
    lt_of_lt_of_le (Nat.lt_pow_self (by norm_num) n) (Nat.pow_le_pow_right (by norm_num) (by omega))
  obtain ⟨k, hk, hpk⟩ := parse_integer_dec_digits n n hn [] 0 0
  refine ⟨k, hk, ?_⟩
  simpa [parse_integer] using hpk

theorem kstrtoull_core_dec_digits (n : Nat) (hn : n < 18446744073709551616) :
    kstrtoull_core (dec_digits (n + 1) n) = some n := by
  obtain ⟨k, hk, hpk⟩ := parse_integer_fmt_digits n
  unfold kstrtoull_core
  rw [hpk]
  have h1 : ¬ (18446744073709551616 ≤ n) := by omega
  have h2 : ¬ (k = 0) := by omega
  simp [h1, h2]

/-- Reading back the text `%d` produced: `kstrtol` accepts it and yields the value. -/
theorem kstrtol_fmt_d (x : Int) (h1 : INT_MIN ≤ x) (h2 : x ≤ INT_MAX) :
    kstrtol (fmt_d x) = some x := by
  unfold INT_MIN at h1; unfold INT_MAX at h2
  have hn : x.natAbs < 18446744073709551616 := by omega
  have hk := kstrtoull_core_dec_digits x.natAbs hn
  unfold fmt_d
  by_cases hneg : x < 0
  · rw [if_pos hneg]
    have h3 : ¬ (9223372036854775808 < x.natAbs) := by omega
    simp only [kstrtol, hk, h3, if_false]
    congr 1; omega
  · rw [if_neg hneg]
    obtain ⟨d, t, hd, hd1, hd2⟩ := dec_digits_cons x.natAbs x.natAbs
    have h3 : ¬ (9223372036854775808 ≤ x.natAbs) := by omega
    have hres : (match kstrtoull_core (dec_digits (x.natAbs + 1) x.natAbs) with
        | none => none
        | some tmp => if 9223372036854775808 ≤ tmp then none else some (tmp : Int)) = some x := by
      rw [hk]; simp only [h3, if_false]; congr 1; omega
    rw [← hres]
    rw [hd]
    unfold kstrtol
    split
    · rename_i heq; simp at heq; omega
    · rename_i heq; simp at heq; omega
    · rfl

theorem dec_digits_injective (a b : Nat)
    (h : dec_digits (a + 1) a = dec_digits (b + 1) b) : a = b := by
  obtain ⟨k, _, hk⟩ := parse_integer_fmt_digits a
  obtain ⟨j, _, hj⟩ := parse_integer_fmt_digits b
  rw [h, hj] at hk
  exact (congrArg Prod.fst hk).symm

/-- The text of `%d` determines the value. -/
theorem fmt_d_injective (a b : Int) (h : fmt_d a = fmt_d b) : a = b := by
  unfold fmt_d at h
  obtain ⟨d, t, hd, hd1, hd2⟩ := dec_digits_cons a.natAbs a.natAbs
  obtain ⟨e, u, he, he1, he2⟩ := dec_digits_cons b.natAbs b.natAbs
  by_cases ha : a < 0 <;> by_cases hb : b < 0
  · simp only [if_pos ha, if_pos hb, List.cons.injEq, true_and] at h
    have := dec_digits_injective _ _ h
    omega
  · simp only [if_pos ha, if_neg hb, he, List.cons.injEq] at h
    omega
  · simp only [if_neg ha, if_pos hb, hd, List.cons.injEq] at h
    omega
  · simp only [if_neg ha, if_neg hb] at h
    have := dec_digits_injective _ _ h
    omega

theorem fmt_d_bytes (x : Int) : ∀ c ∈ fmt_d x, c ≠ 0 := by
  intro c hc
  unfold fmt_d at hc
  by_cases hneg : x < 0
  · simp only [if_pos hneg, List.mem_cons] at hc
    rcases hc with hc | hc
    · omega
    · have := dec_digits_bytes _ _ c hc; omega
  · simp only [if_neg hneg] at hc
    have := dec_digits_bytes _ _ c hc; omega

theorem pid_line_injective (a b : Int) (h : pid_line a = pid_line b) : a = b := by
  have h2 : [112, 105, 100, 58, 32] ++ fmt_d a ++ [10] = [112, 105, 100, 58, 32] ++ fmt_d b ++ [10] := h
  simp only [List.append_assoc, List.append_cancel_left_eq, List.append_cancel_right_eq] at h2
  exact fmt_d_injective a b h2

theorem pid_line_eq (p : Int) : pid_line p = [112, 105, 100, 58, 32] ++ fmt_d p ++ [10] := rfl

theorem takeWhile_ne_zero_append (s rest : List Nat) (hs : ∀ c ∈ s, c ≠ 0) :
    (s ++ 0 :: rest).takeWhile (fun c => c != 0) = s := by
  induction s with
  | nil => simp
  | cons a t ih =>
    have ha : a ≠ 0 := hs a (by simp)
    have := ih (fun c hc => hs c (by simp [hc]))
    simp [List.takeWhile_cons, ha, this]

theorem cstr_at_add_cmd (env : Env) (P : Int) :
    cstr_at env (add_cmd P ++ [0]) (add_message.length + 1) = fmt_d P := by
  have := takeWhile_ne_zero_append (fmt_d P) env.beyond (fmt_d_bytes P)
  simpa [cstr_at, add_cmd, add_message] using this

theorem cstr_at_del_cmd (env : Env) (P : Int) :
    cstr_at env (del_cmd P ++ [0]) (del_message.length + 1) = fmt_d P := by
  have := takeWhile_ne_zero_append (fmt_d P) env.beyond (fmt_d_bytes P)
  simpa [cstr_at, del_cmd, del_message] using this

/-- What `device_write` does on `add P` when `P` is an `int` with a parent: it appends
`P`, then the parent, and returns the payload length. -/
theorem device_write_add_cmd (env : Env) (hidden_proc : List Int) (P Q : Int) (offset : Int)
    (h1 : INT_MIN ≤ P) (h2 : P ≤ INT_MAX) (hpar : env.parent P = some Q) :
    device_write env hidden_proc (add_cmd P) offset
      = WriteOutcome.ret (add_cmd P).length (hidden_proc ++ [P, Q]) (add_cmd P).length := by
  have hw := wrap32_of_range P h1 h2
  have hc := cstr_at_add_cmd env P
  have hk := kstrtol_fmt_d P h1 h2
  have hlen : ¬ ((add_cmd P).length < (add_message.length + 1) - 1
      ∧ (add_cmd P).length < (del_message.length + 1) - 1) := by
    simp [add_cmd, add_message]
  have htake : (add_cmd P ++ [0]).take ((add_message.length + 1) - 1) = add_message := by
    simp [add_cmd, add_message]
  unfold device_write
  simp only [hlen, if_false, htake, if_true, hc, hk, Option.getD_some, get_ppid, hw, hpar,
    hide_process, List.append_assoc, List.singleton_append]

/-- What `device_write` does on `del P` when `P` is an `int` with a parent: it removes
every entry equal to `P`, then every entry equal to the parent, and returns the
payload length. -/
theorem device_write_del_cmd (env : Env) (hidden_proc : List Int) (P Q : Int) (offset : Int)
    (h1 : INT_MIN ≤ P) (h2 : P ≤ INT_MAX) (hpar : env.parent P = some Q) :
    device_write env hidden_proc (del_cmd P) offset
      = WriteOutcome.ret (del_cmd P).length
          (unhide_loop Q (unhide_loop P hidden_proc)) (del_cmd P).length := by
  have hw := wrap32_of_range P h1 h2
  have hc := cstr_at_del_cmd env P
  have hk := kstrtol_fmt_d P h1 h2
  have hlen : ¬ ((del_cmd P).length < (add_message.length + 1) - 1
      ∧ (del_cmd P).length < (del_message.length + 1) - 1) := by
    simp [del_cmd, del_message]
  have htake : (del_cmd P ++ [0]).take ((del_message.length + 1) - 1) = del_message := by
    simp [del_cmd, del_message]
  have hntake : ¬ ((del_cmd P ++ [0]).take ((add_message.length + 1) - 1) = add_message) := by
    simp [del_cmd, del_message, add_message]
  unfold device_write
  simp only [hlen, if_false, hntake, htake, if_true, hc, hk, Option.getD_some, get_ppid, hw,
    hpar, unhide_process]

/-! ## The reporting interface -/

theorem pid_line_bytes (p : Int) : ∀ c ∈ pid_line p, c ≠ 0 := by
  intro c hc
  rw [pid_line_eq] at hc
  simp only [List.mem_append, List.mem_cons, List.mem_singleton, List.not_mem_nil, or_false] at hc
  rcases hc with (hc | hc) | hc
  · omega
  · exact fmt_d_bytes p c hc
  · omega

theorem strlen_padded_length (text : List Nat) (k : Nat) (hk : 0 < k) (ht : ∀ c ∈ text, c ≠ 0) :
    strlen (text ++ List.replicate k 0) = text.length := by
  obtain ⟨j, rfl⟩ : ∃ j, k = j + 1 := ⟨k - 1, by omega⟩
  have h := takeWhile_ne_zero_append text (List.replicate j 0) ht
  have e : text ++ List.replicate (j + 1) 0 = text ++ 0 :: List.replicate j 0 := by
    simp [List.replicate_succ]
  rw [e]
  unfold strlen
  rw [h]

/-- Two copies to adjacent places are one copy of the concatenation. -/
theorem copy_to_user_append (user : UserMem) (dst : Int) (a b : List Nat) :
    copy_to_user (copy_to_user user dst a) (dst + a.length) b = copy_to_user user dst (a ++ b) := by
  funext x
  unfold copy_to_user
  by_cases h1 : dst ≤ x ∧ x < dst + a.length
  · have h2 : ¬ (dst + a.length ≤ x ∧ x < dst + a.length + b.length) := by omega
    have h3 : dst ≤ x ∧ x < dst + ((a ++ b).length : Int) := by
      simp only [List.length_append, Nat.cast_add]; omega
    have h4 : (x - dst).toNat < a.length := by omega
    simp only [h1, h2, h3, and_self, if_true, if_false]
    simp [List.getD_eq_getElem?_getD, List.getElem?_append_left h4]
  · by_cases h2 : dst + a.length ≤ x ∧ x < dst + a.length + b.length
    · have h3 : dst ≤ x ∧ x < dst + ((a ++ b).length : Int) := by
        simp only [List.length_append, Nat.cast_add]; omega
      have h4 : a.length ≤ (x - dst).toNat := by omega
      have h5 : (x - (dst + a.length)).toNat = (x - dst).toNat - a.length := by omega
      simp only [h2, h3, and_self, if_true]
      simp [List.getD_eq_getElem?_getD, List.getElem?_append_right h4, h5]
    · have h3 : ¬ (dst ≤ x ∧ x < dst + ((a ++ b).length : Int)) := by
        simp only [List.length_append, Nat.cast_add]; omega
      simp only [h1, h2, h3, if_false]

theorem copy_to_user_nil (user : UserMem) (dst : Int) : copy_to_user user dst [] = user := by
  funext x
  unfold copy_to_user
  have : ¬ (dst ≤ x ∧ x < dst + (([] : List Nat).length : Int)) := by simp
  simp only [this, if_false]

theorem snapshot_cons (p : Int) (rest : List Int) :
    snapshot (p :: rest) = pid_line p ++ snapshot rest := by
  simp [snapshot]

theorem device_read_loop_cons_fit (p : Int) (rest : List Int) (user : UserMem) (offset : Int)
    (hlen : (pid_line p).length + 1 ≤ MAX_MESSAGE_SIZE) :
    device_read_loop (p :: rest) user offset
      = device_read_loop rest (copy_to_user user offset (pid_line p))
          (offset + (pid_line p).length) := by
  have hb := pid_line_bytes p
  unfold pid_line at hlen hb ⊢
  rw [device_read_loop]
  generalize sprintf_d OUTPUT_BUFFER_FORMAT p = text at hlen hb ⊢
  generalize MAX_MESSAGE_SIZE = M at hlen ⊢
  have hnot : ¬ (M < text.length + 1) := by omega
  have hk : 0 < M - text.length := by omega
  have e2 := strlen_padded_length text _ hk hb
  simp only [hnot, if_false, e2, List.take_left]

theorem device_read_loop_cons_overrun (p : Int) (rest : List Int) (user : UserMem) (offset : Int)
    (hlen : ¬ ((pid_line p).length + 1 ≤ MAX_MESSAGE_SIZE)) :
    device_read_loop (p :: rest) user offset = ReadOutcome.overrun user offset := by
  unfold pid_line at hlen
  rw [device_read_loop]
  generalize sprintf_d OUTPUT_BUFFER_FORMAT p = text at hlen ⊢
  generalize MAX_MESSAGE_SIZE = M at hlen ⊢
  have hover : M < text.length + 1 := by omega
  simp only [hover, if_true]

/-- The loop of `device_read` copies the lines of the entries up to the first one whose
line does not fit in `message`, and returns normally exactly when every line fits. -/
theorem device_read_loop_eq (hidden_proc : List Int) (user : UserMem) (offset : Int) :
    device_read_loop hidden_proc user offset =
      if hidden_proc.all fits = true then
        ReadOutcome.ret (offset + (snapshot hidden_proc).length)
          (copy_to_user user offset (snapshot hidden_proc))
          (offset + (snapshot hidden_proc).length)
      else
        ReadOutcome.overrun
          (copy_to_user user offset (snapshot (hidden_proc.takeWhile fits)))
          (offset + (snapshot (hidden_proc.takeWhile fits)).length) := by
  induction hidden_proc generalizing user offset with
  | nil => simp [device_read_loop, snapshot, copy_to_user_nil]
  | cons p rest ih =>
    by_cases hf : fits p = true
    · have hlen : (pid_line p).length + 1 ≤ MAX_MESSAGE_SIZE := by
        simpa [fits] using hf
      rw [device_read_loop_cons_fit p rest user offset hlen, ih]
      simp only [List.all_cons, hf, Bool.true_and, List.takeWhile_cons, if_true, snapshot_cons,
        copy_to_user_append, List.length_append, Nat.cast_add, Int.add_assoc]
    · have hlen : ¬ ((pid_line p).length + 1 ≤ MAX_MESSAGE_SIZE) := by
        simpa [fits] using hf
      rw [device_read_loop_cons_overrun p rest user offset hlen]
      simp [hf, List.takeWhile_cons, snapshot, copy_to_user_nil]

/-- When every line fits in `message`, a read at offset 0 copies the snapshot to the
start of the user buffer, returns its length and sets the offset to that length. -/
theorem device_read_of_fits (hidden_proc : List Int) (user : UserMem) (len : Nat)
    (hfit : ∀ p ∈ hidden_proc, fits p = true) :
    device_read hidden_proc user len 0 =
      ReadOutcome.ret (snapshot hidden_proc).length
        (copy_to_user user 0 (snapshot hidden_proc)) (snapshot hidden_proc).length := by
  have hall : hidden_proc.all fits = true := by simpa using hfit
  unfold device_read
  simp only [ne_eq, not_true_eq_false, if_false, device_read_loop_eq, hall, if_true, Int.zero_add]

/-- The bytes a copy leaves in the destination range are those of the source. -/
theorem copy_to_user_inside (user : UserMem) (src : List Nat) (i : Nat) (hi : i < src.length) :
    copy_to_user user 0 src i = src.getD i 0 := by
  unfold copy_to_user
  have : (0 : Int) ≤ i ∧ (i : Int) < 0 + (src.length : Int) := by omega
  rw [if_pos this]
  simp

/-- A copy leaves every byte outside the destination range as it was. -/
theorem copy_to_user_outside (user : UserMem) (src : List Nat) (a : Int)
    (ha : a < 0 ∨ (src.length : Int) ≤ a) : copy_to_user user 0 src a = user a := by
  unfold copy_to_user
  have : ¬ ((0 : Int) ≤ a ∧ a < 0 + (src.length : Int)) := by omega
  rw [if_neg this]

/-! ## Lookup when the argument itself is live and visible -/

theorem hook_find_ge_pid_self (live : List Int) (real : Int → Option Int)
    (hidden_proc : List Int) (P : Int) (fuel : Nat)
    (hreal : ∀ m, LeastGe (fun p => p ∈ live) m (real m))
    (hlive : P ∈ live) (hvis : is_hidden_proc hidden_proc P = false) (hfuel : 0 < fuel) :
    hook_find_ge_pid real hidden_proc fuel P = some (some P) := by
  obtain ⟨f, rfl⟩ : ∃ f, fuel = f + 1 := ⟨fuel - 1, by omega⟩
  have hm := hreal P
  cases hr : real P with
  | none =>
    rw [hr] at hm
    simp only [LeastGe] at hm
    have := hm P hlive
    omega
  | some p =>
    rw [hr] at hm
    simp only [LeastGe] at hm
    have hle := hm.2.2 P hlive (le_refl P)
    have hp : p = P := by omega
    subst hp
    simp [hook_find_ge_pid, hook_find_ge_pid_calls, hr, hook_find_ge_pid_loop, hvis]

theorem unhide_loop_not_mem (pid : Int) (hidden_proc : List Int) :
    pid ∉ unhide_loop pid hidden_proc := by
  rw [unhide_loop_eq_filter]
  simp [List.mem_filter]

theorem unhide_loop_of_not_mem (pid : Int) (hidden_proc : List Int) (h : pid ∉ hidden_proc) :
    unhide_loop pid hidden_proc = hidden_proc := by
  rw [unhide_loop_eq_filter]
  apply List.filter_eq_self.2
  intro x hx
  have : x ≠ pid := fun e => h (e ▸ hx)
  simpa using this

/-- The registry after `add P` then `del P`: the starting registry without the entries
equal to `P` or to its parent `Q`. -/
theorem unhide_after_hide (hidden_proc : List Int) (P Q : Int) :
    unhide_loop Q (unhide_loop P (hidden_proc ++ [P, Q]))
      = hidden_proc.filter (fun x => decide (x ≠ P) && decide (x ≠ Q)) := by
  simp only [unhide_loop_eq_filter, List.filter_filter, List.filter_append]
  by_cases h : Q = P
  · subst h
    simp [List.filter_cons, Bool.and_comm]
  · simp [List.filter_cons, h, Bool.and_comm]

/-- What a read at offset 0 leaves in user memory: the lines of the entries up to the
first one whose line does not fit in `message`. -/
theorem device_read_user_mem (hidden_proc : List Int) (user : UserMem) (len : Nat) :
    (device_read hidden_proc user len 0).user_mem
      = copy_to_user user 0 (snapshot (hidden_proc.takeWhile fits)) := by
  unfold device_read
  simp only [ne_eq, not_true_eq_false, if_false, device_read_loop_eq]
  split <;> rename_i hall
  · have : hidden_proc.takeWhile fits = hidden_proc := by
      apply List.takeWhile_eq_self_iff.2
      exact List.all_eq_true.1 hall
    rw [this]; rfl
  · rfl

/-! ## The claims -/

/-- C2: for every starting registry and every PID `P` (an `int`) whose parent is `Q`,
the writes `add P` and then `del P` both return normally, and afterwards
`is_hidden_proc(P)` is false, a read at offset 0 copies to the user buffer only lines of
registry entries, none of which is the line of `P`, and `hook_find_ge_pid(P)` returns
`P` whenever `P` is live and the original lookup returns the least live PID from its
argument on. -/
theorem add_then_del_restores_visibility (env : Env) (hidden_proc : List Int) (P Q : Int)
    (off1 off2 : Int) (h1 : INT_MIN ≤ P) (h2 : P ≤ INT_MAX) (hpar : env.parent P = some Q) :
    ∃ R2 : List Int,
      device_write env hidden_proc (add_cmd P) off1
        = WriteOutcome.ret (add_cmd P).length (hidden_proc ++ [P, Q]) (add_cmd P).length ∧
      device_write env (hidden_proc ++ [P, Q]) (del_cmd P) off2
        = WriteOutcome.ret (del_cmd P).length R2 (del_cmd P).length ∧
      R2 = hidden_proc.filter (fun x => decide (x ≠ P) && decide (x ≠ Q)) ∧
      is_hidden_proc R2 P = false ∧
      (∀ (user : UserMem) (len : Nat),
        (device_read R2 user len 0).user_mem
          = copy_to_user user 0 (snapshot (R2.takeWhile fits))) ∧
      (∀ x ∈ R2, pid_line x ≠ pid_line P) ∧
      (∀ (live : List Int) (real : Int → Option Int) (fuel : Nat),
        (∀ m, LeastGe (fun p => p ∈ live) m (real m)) → P ∈ live → 0 < fuel →
        hook_find_ge_pid real R2 fuel P = some (some P)) := by
  have hP : P ∉ hidden_proc.filter (fun x => decide (x ≠ P) && decide (x ≠ Q)) := by
    simp [List.mem_filter]
  have hvis := (is_hidden_proc_false_iff _ _).2 hP
  refine ⟨_, device_write_add_cmd env hidden_proc P Q off1 h1 h2 hpar, ?_, rfl, hvis, ?_, ?_, ?_⟩
  · rw [device_write_del_cmd env _ P Q off2 h1 h2 hpar, unhide_after_hide]
  · intro user len
    exact device_read_user_mem _ user len
  · intro x hx hline
    exact hP (pid_line_injective x P hline ▸ hx)
  · intro live real fuel hreal hlive hfuel
    exact hook_find_ge_pid_self live real _ P fuel hreal hlive hvis hfuel

theorem add_then_del_restores_visibility_witness :
    ∃ R2 : List Int,
      device_write ⟨fun p => if p = 1234 then some 1 else none, 0, []⟩ [7, 1234, 1]
          (add_cmd 1234) 0
        = WriteOutcome.ret (add_cmd 1234).length ([7, 1234, 1] ++ [1234, 1])
            (add_cmd 1234).length ∧
      device_write ⟨fun p => if p = 1234 then some 1 else none, 0, []⟩
          ([7, 1234, 1] ++ [1234, 1]) (del_cmd 1234) 8
        = WriteOutcome.ret (del_cmd 1234).length R2 (del_cmd 1234).length ∧
      R2 = [7, 1234, 1].filter (fun x => decide (x ≠ 1234) && decide (x ≠ 1)) ∧
      is_hidden_proc R2 1234 = false ∧
      (∀ (user : UserMem) (len : Nat),
        (device_read R2 user len 0).user_mem
          = copy_to_user user 0 (snapshot (R2.takeWhile fits))) ∧
      (∀ x ∈ R2, pid_line x ≠ pid_line 1234) ∧
      (∀ (live : List Int) (real : Int → Option Int) (fuel : Nat),
        (∀ m, LeastGe (fun p => p ∈ live) m (real m)) → (1234 : Int) ∈ live → 0 < fuel →
        hook_find_ge_pid real R2 fuel 1234 = some (some 1234)) :=
  add_then_del_restores_visibility ⟨fun p => if p = 1234 then some 1 else none, 0, []⟩
    [7, 1234, 1] 1234 1 0 8 (by decide) (by decide) (by decide)

/-- C3: for every starting registry and every PID `P` (an `int`) whose parent is `Q`,
the write `add P` returns normally and leaves `is_hidden_proc(Q)` true, and the write
`del P` returns normally and leaves `is_hidden_proc(Q)` false, no entry equal to `Q`
remaining in the registry. -/
theorem add_hides_parent_del_unhides_parent (env : Env) (hidden_proc : List Int) (P Q : Int)
    (offset : Int) (h1 : INT_MIN ≤ P) (h2 : P ≤ INT_MAX) (hpar : env.parent P = some Q) :
    (∃ R1, device_write env hidden_proc (add_cmd P) offset
          = WriteOutcome.ret (add_cmd P).length R1 (add_cmd P).length ∧
        is_hidden_proc R1 Q = true) ∧
    (∃ R2, device_write env hidden_proc (del_cmd P) offset
          = WriteOutcome.ret (del_cmd P).length R2 (del_cmd P).length ∧
        is_hidden_proc R2 Q = false ∧ Q ∉ R2) := by
  constructor
  · refine ⟨_, device_write_add_cmd env hidden_proc P Q offset h1 h2 hpar, ?_⟩
    rw [is_hidden_proc_iff]; simp
  · refine ⟨_, device_write_del_cmd env hidden_proc P Q offset h1 h2 hpar, ?_, ?_⟩
    · rw [is_hidden_proc_false_iff]; exact unhide_loop_not_mem Q _
    · exact unhide_loop_not_mem Q _

theorem add_hides_parent_del_unhides_parent_witness :
    (∃ R1, device_write ⟨fun p => if p = 1234 then some 1 else none, 0, []⟩ [1, 5, 1]
            (add_cmd 1234) 0
          = WriteOutcome.ret (add_cmd 1234).length R1 (add_cmd 1234).length ∧
        is_hidden_proc R1 1 = true) ∧
    (∃ R2, device_write ⟨fun p => if p = 1234 then some 1 else none, 0, []⟩ [1, 5, 1]
            (del_cmd 1234) 0
          = WriteOutcome.ret (del_cmd 1234).length R2 (del_cmd 1234).length ∧
        is_hidden_proc R2 1 = false ∧ (1 : Int) ∉ R2) :=
  add_hides_parent_del_unhides_parent ⟨fun p => if p = 1234 then some 1 else none, 0, []⟩
    [1, 5, 1] 1234 1 0 (by decide) (by decide) (by decide)

/-- The registry part of the round trip: when the registry holds neither `P` nor its
parent, `add P` followed by `del P` gives the registry back unchanged. -/
theorem add_then_del_round_trip (env : Env) (hidden_proc : List Int) (P Q : Int)
    (off1 off2 : Int) (h1 : INT_MIN ≤ P) (h2 : P ≤ INT_MAX) (hpar : env.parent P = some Q)
    (hP : P ∉ hidden_proc) (hQ : Q ∉ hidden_proc) :
    device_write env hidden_proc (add_cmd P) off1
      = WriteOutcome.ret (add_cmd P).length (hidden_proc ++ [P, Q]) (add_cmd P).length ∧
    device_write env (hidden_proc ++ [P, Q]) (del_cmd P) off2
      = WriteOutcome.ret (del_cmd P).length hidden_proc (del_cmd P).length := by
  refine ⟨device_write_add_cmd env hidden_proc P Q off1 h1 h2 hpar, ?_⟩
  rw [device_write_del_cmd env _ P Q off2 h1 h2 hpar, unhide_after_hide]
  congr 1
  apply List.filter_eq_self.2
  intro x hx
  have hxP : x ≠ P := fun e => hP (e ▸ hx)
  have hxQ : x ≠ Q := fun e => hQ (e ▸ hx)
  simp [hxP, hxQ]

/-- The read part of the scenario when the parent's line fits in `message`: after
`add 1234` on the empty registry the read returns the two lines, and on the empty
registry the read returns 0 and writes nothing. -/
theorem scenario_1234_when_parent_fits (env : Env) (Q : Int) (user : UserMem) (len : Nat) (offset : Int)
    (hpar : env.parent 1234 = some Q) (hfit : fits Q = true) :
    device_write env [] (add_cmd 1234) offset = WriteOutcome.ret 8 [1234, Q] 8 ∧
    device_read [1234, Q] user len 0
      = ReadOutcome.ret ((pid_line 1234 ++ pid_line Q).length)
          (copy_to_user user 0 (pid_line 1234 ++ pid_line Q))
          ((pid_line 1234 ++ pid_line Q).length) ∧
    device_read [] user len 0 = ReadOutcome.ret 0 user 0 := by
  refine ⟨?_, ?_, ?_⟩
  · have := device_write_add_cmd env [] 1234 Q offset (by decide) (by decide) hpar
    simpa using this
  · have hall : ∀ p ∈ [1234, Q], fits p = true := by
      intro p hp
      simp only [List.mem_cons, List.mem_singleton, List.not_mem_nil, or_false] at hp
      rcases hp with rfl | rfl
      · decide
      · exact hfit
    have := device_read_of_fits [1234, Q] user len hall
    simpa [snapshot] using this
  · simp [device_read, device_read_loop]

/-- C4: evaluation of the scenario when the parent of 1234 is the live PID 1234567.
The write `add 1234` gives the registry `[1234, 1234567]`; the following read copies the
line of 1234 and then overruns `message` while formatting the line of 1234567 (14 bytes
with the final NUL, in an array of `MAX_MESSAGE_SIZE` = 13), so it does not return the
two lines. -/
theorem read_after_add_1234_overruns :
    device_write ⟨fun p => if p = 1234 then some 1234567 else none, 0, []⟩ []
        (add_cmd 1234) 0 = WriteOutcome.ret 8 [1234, 1234567] 8 ∧
    (pid_line 1234567).length + 1 = 14 ∧ MAX_MESSAGE_SIZE = 13 ∧
    ∀ (user : UserMem) (len : Nat),
      device_read [1234, 1234567] user len 0
        = ReadOutcome.overrun (copy_to_user user 0 (pid_line 1234)) 10 := by
  refine ⟨by decide, by decide, by decide, ?_⟩
  intro user len
  unfold device_read
  simp only [ne_eq, not_true_eq_false, if_false]
  rw [device_read_loop_cons_fit 1234 _ user 0 (by decide),
    device_read_loop_cons_overrun 1234567 _ _ _ (by decide)]
  have : (pid_line 1234).length = 10 := by decide
  rw [this]; rfl

/-- C5: evaluation of a read at offset 0 of the registry `[1234567]`: formatting the line
takes 14 bytes with the final NUL, `message` has `MAX_MESSAGE_SIZE` = 13, and the read
overruns the array instead of returning the 13 bytes of the line. -/
theorem device_read_overruns_message :
    (pid_line 1234567).length + 1 = 14 ∧ MAX_MESSAGE_SIZE = 13 ∧
    ∀ (user : UserMem) (len : Nat),
      device_read [1234567] user len 0 = ReadOutcome.overrun user 0 := by
  refine ⟨by decide, by decide, ?_⟩
  intro user len
  unfold device_read
  simp only [ne_eq, not_true_eq_false, if_false]
  rw [device_read_loop_cons_overrun 1234567 _ _ _ (by decide)]

/-- C6: for every registry and every non-zero starting offset, `device_read` returns 0
and leaves user memory and the offset as they were; the registry is only read. -/
theorem device_read_nonzero_offset (hidden_proc : List Int) (user : UserMem) (len : Nat)
    (offset : Int) (h : offset ≠ 0) :
    device_read hidden_proc user len offset = ReadOutcome.ret 0 user offset := by
  unfold device_read
  rw [if_pos h]

theorem device_read_nonzero_offset_witness :
    device_read [1234, 1] (fun _ => 0) 64 20 = ReadOutcome.ret 0 (fun _ => 0) 20 :=
  device_read_nonzero_offset [1234, 1] (fun _ => 0) 64 20 (by decide)

/-- C7: evaluation of the write of the four bytes `add` and newline, for every registry:
`kstrtol` fails on the empty string, its result is ignored and the local `pid` is used
without having been set; the value is appended to the registry, and the call then
faults in `get_ppid` or returns 4. No error is returned and the registry changes. -/
theorem device_write_add_without_number (env : Env) (hidden_proc : List Int) (offset : Int) :
    kstrtol (cstr_at env ([97, 100, 100, 10] ++ [0]) 4) = none ∧
    device_write env hidden_proc [97, 100, 100, 10] offset
      = (match env.parent (wrap32 env.pid0) with
        | none => WriteOutcome.oops (hidden_proc ++ [wrap32 env.pid0])
        | some ppid => WriteOutcome.ret 4 (hidden_proc ++ [wrap32 env.pid0, ppid]) 4) ∧
    hidden_proc ++ [wrap32 env.pid0] ≠ hidden_proc := by
  have hc : cstr_at env ([97, 100, 100, 10] ++ [0]) 4 = [] := by
    simp [cstr_at]
  refine ⟨by rw [hc]; decide, ?_, by simp⟩
  unfold device_write
  have hc2 : cstr_at env ([97, 100, 100, 10] ++ [0]) (add_message.length + 1) = [] := hc
  have hk : kstrtol [] = none := by decide
  simp only [hc2, hk, Option.getD_none, get_ppid, hide_process]
  cases env.parent (wrap32 env.pid0) <;> simp [add_message, del_message]

/-- C8: for every registry and every payload that is shorter than 3 bytes or whose first
3 bytes are neither `add` nor `del`, `device_write` returns `-EAGAIN` and leaves the
registry and the file offset as they were. -/
theorem device_write_unrecognized (env : Env) (hidden_proc : List Int) (buffer : List Nat)
    (offset : Int)
    (h : buffer.length < 3 ∨ (buffer.take 3 ≠ add_message ∧ buffer.take 3 ≠ del_message)) :
    device_write env hidden_proc buffer offset = WriteOutcome.ret (-EAGAIN) hidden_proc offset := by
  unfold device_write
  by_cases hlen : buffer.length < 3
  · have : buffer.length < (add_message.length + 1) - 1
        ∧ buffer.length < (del_message.length + 1) - 1 := by
      simp [add_message, del_message, hlen]
    simp only [this, and_self, if_true]
  · have hnot : ¬ (buffer.length < (add_message.length + 1) - 1
        ∧ buffer.length < (del_message.length + 1) - 1) := by
      simp [add_message, del_message]; omega
    rcases h with h | ⟨ha, hd⟩
    · exact absurd h hlen
    · have e : (buffer ++ [0]).take 3 = buffer.take 3 :=
        List.take_append_of_le_length (by omega)
      have ea : ¬ ((buffer ++ [0]).take ((add_message.length + 1) - 1) = add_message) := by
        have : (add_message.length + 1) - 1 = 3 := rfl
        rw [this, e]; exact ha
      have ed : ¬ ((buffer ++ [0]).take ((del_message.length + 1) - 1) = del_message) := by
        have : (del_message.length + 1) - 1 = 3 := rfl
        rw [this, e]; exact hd
      simp only [hnot, if_false, ea, ed]

theorem device_write_unrecognized_witness :
    device_write ⟨fun _ => none, 0, []⟩ [1234, 1] [104, 105, 100, 101, 32, 55] 3
      = WriteOutcome.ret (-EAGAIN) [1234, 1] 3 :=
  device_write_unrecognized ⟨fun _ => none, 0, []⟩ [1234, 1] [104, 105, 100, 101, 32, 55] 3
    (Or.inr (by decide))

/-- C9: for every registry `R` and every PID `P`, `unhide_process(P)` returns `SUCCESS`
and leaves the registry equal to `R` without its entries equal to `P`, the other entries
in their original order; when `P` does not occur in `R` the registry is unchanged. -/
theorem unhide_process_removes_all (hidden_proc : List Int) (P : Int) :
    unhide_process P hidden_proc
      = (SUCCESS, hidden_proc.filter (fun x => decide (x ≠ P))) ∧
    (P ∉ hidden_proc → (unhide_process P hidden_proc).2 = hidden_proc) := by
  refine ⟨?_, ?_⟩
  · simp only [unhide_process, unhide_loop_eq_filter]
  · intro h
    exact unhide_loop_of_not_mem P hidden_proc h

theorem unhide_process_removes_all_witness :
    unhide_process 1 [1, 1234, 1, 7]
      = (SUCCESS, [1, 1234, 1, 7].filter (fun x => decide (x ≠ 1))) ∧
    (unhide_process 5 [1, 1234, 1, 7]).2 = [1, 1234, 1, 7] :=
  ⟨(unhide_process_removes_all [1, 1234, 1, 7] 1).1,
    (unhide_process_removes_all [1, 1234, 1, 7] 5).2 (by decide)⟩

/-- C10: for every registry `R` and every PID `P`, also one already in `R`,
`hide_process(P)` returns `SUCCESS` and leaves the registry equal to `R` with `P` appended
(one entry more, no deduplication); and a write `add P`, for `P` an `int` whose parent
is `Q`, returns normally and leaves the registry equal to `R` followed by `P` and `Q`. -/
theorem hide_process_appends (hidden_proc : List Int) (P : Int) :
    hide_process P hidden_proc = (SUCCESS, hidden_proc ++ [P]) ∧
    (hide_process P hidden_proc).2.length = hidden_proc.length + 1 ∧
    ∀ (env : Env) (Q offset : Int), INT_MIN ≤ P → P ≤ INT_MAX → env.parent P = some Q →
      device_write env hidden_proc (add_cmd P) offset
        = WriteOutcome.ret (add_cmd P).length (hidden_proc ++ [P, Q]) (add_cmd P).length := by
  refine ⟨rfl, by simp [hide_process], ?_⟩
  intro env Q offset h1 h2 hpar
  exact device_write_add_cmd env hidden_proc P Q offset h1 h2 hpar

theorem hide_process_appends_witness :
    hide_process 1234 [1234, 1] = (SUCCESS, [1234, 1] ++ [1234]) ∧
    (hide_process 1234 [1234, 1]).2.length = [1234, 1].length + 1 ∧
    device_write ⟨fun p => if p = 1234 then some 1 else none, 0, []⟩ [1234, 1]
        (add_cmd 1234) 0
      = WriteOutcome.ret (add_cmd 1234).length ([1234, 1] ++ [1234, 1]) (add_cmd 1234).length :=
  ⟨(hide_process_appends [1234, 1] 1234).1, (hide_process_appends [1234, 1] 1234).2.1,
    (hide_process_appends [1234, 1] 1234).2.2
      ⟨fun p => if p = 1234 then some 1 else none, 0, []⟩ 1 0 (by decide) (by decide)
      (by decide)⟩

/-! ## Failed parent lookup -/

/-- C11: evaluation of writes for PID 1234 when no process has that PID, for every
registry: `add 1234` appends 1234 before `get_ppid` dereferences NULL, so the request
fails with the registry changed; `del 1234` likewise removes the entries equal to 1234
before the fault. -/
theorem device_write_parent_lookup_fails (hidden_proc : List Int) (offset : Int) :
    device_write ⟨fun _ => none, 0, []⟩ hidden_proc (add_cmd 1234) offset
      = WriteOutcome.oops (hidden_proc ++ [1234]) ∧
    hidden_proc ++ [1234] ≠ hidden_proc ∧
    device_write ⟨fun _ => none, 0, []⟩ (hidden_proc ++ [1234]) (del_cmd 1234) offset
      = WriteOutcome.oops (unhide_loop 1234 hidden_proc) ∧
    unhide_loop 1234 hidden_proc ≠ hidden_proc ++ [1234] := by
  have hw : wrap32 1234 = 1234 := by decide
  have hk := kstrtol_fmt_d 1234 (by decide) (by decide)
  refine ⟨?_, by simp, ?_, ?_⟩
  · have hc := cstr_at_add_cmd ⟨fun _ => none, 0, []⟩ 1234
    have hlen : ¬ ((add_cmd 1234).length < (add_message.length + 1) - 1
        ∧ (add_cmd 1234).length < (del_message.length + 1) - 1) := by decide
    have htake : (add_cmd 1234 ++ [0]).take ((add_message.length + 1) - 1) = add_message := by
      decide
    unfold device_write
    simp only [hlen, if_false, htake, if_true, hc, hk, Option.getD_some, get_ppid, hw,
      hide_process]
  · have hc := cstr_at_del_cmd ⟨fun _ => none, 0, []⟩ 1234
    have hlen : ¬ ((del_cmd 1234).length < (add_message.length + 1) - 1
        ∧ (del_cmd 1234).length < (del_message.length + 1) - 1) := by decide
    have htake : (del_cmd 1234 ++ [0]).take ((del_message.length + 1) - 1) = del_message := by
      decide
    have hntake : ¬ ((del_cmd 1234 ++ [0]).take ((add_message.length + 1) - 1) = add_message) := by
      decide
    have hu : unhide_loop 1234 (hidden_proc ++ [1234]) = unhide_loop 1234 hidden_proc := by
      simp [unhide_loop_eq_filter]
    unfold device_write
    simp only [hlen, if_false, hntake, htake, if_true, hc, hk, Option.getD_some, get_ppid, hw,
      unhide_process, hu]
  · intro h
    have hm : (1234 : Int) ∈ unhide_loop 1234 hidden_proc := by rw [h]; simp
    exact unhide_loop_not_mem 1234 hidden_proc hm

/-! ## The hook manager -/

/-- C12: when the symbol lookup returns 0, `hook_resolve_addr` returns `-ENOENT` and
leaves the original-function slot as it was, and `hook_install` returns that error
with the tracing subsystem untouched, no call to it having been made; when the lookup
returns a non-zero address, `hook_resolve_addr` returns 0 with `address` and the
original-function slot both equal to it. -/
theorem hook_resolve_addr_spec (lookup : List Nat → Nat) (outcome : Nat → Int)
    (hook : ftrace_hook) (ft : Ftrace) :
    (lookup hook.name = 0 →
      hook_resolve_addr lookup hook = (-ENOENT, { hook with address := 0 }) ∧
      (hook_resolve_addr lookup hook).2.orig = hook.orig ∧
      hook_install lookup outcome hook ft = (-ENOENT, { hook with address := 0 }, ft)) ∧
    (lookup hook.name ≠ 0 →
      (hook_resolve_addr lookup hook).1 = 0 ∧
      (hook_resolve_addr lookup hook).2.address = lookup hook.name ∧
      (hook_resolve_addr lookup hook).2.orig = lookup hook.name) := by
  constructor
  · intro h0
    have hr : hook_resolve_addr lookup hook = (-ENOENT, { hook with address := 0 }) := by
      simp [hook_resolve_addr, h0]
    refine ⟨hr, by rw [hr], ?_⟩
    unfold hook_install
    rw [hr]
    simp [ENOENT]
  · intro hne
    simp [hook_resolve_addr, hne]

theorem hook_resolve_addr_spec_witness :
    (hook_resolve_addr (fun _ => 0) ⟨[102], 500, 7, 9, false, []⟩
        = (-ENOENT, ⟨[102], 500, 7, 0, false, []⟩) ∧
      (hook_resolve_addr (fun _ => 0) ⟨[102], 500, 7, 9, false, []⟩).2.orig = 7 ∧
      hook_install (fun _ => 0) (fun _ => 0) ⟨[102], 500, 7, 9, false, []⟩ ⟨[], false, []⟩
        = (-ENOENT, ⟨[102], 500, 7, 0, false, []⟩, ⟨[], false, []⟩)) ∧
    ((hook_resolve_addr (fun _ => 4096) ⟨[102], 500, 7, 9, false, []⟩).1 = 0 ∧
      (hook_resolve_addr (fun _ => 4096) ⟨[102], 500, 7, 9, false, []⟩).2.address = 4096 ∧
      (hook_resolve_addr (fun _ => 4096) ⟨[102], 500, 7, 9, false, []⟩).2.orig = 4096) :=
  ⟨(hook_resolve_addr_spec (fun _ => 0) (fun _ => 0) ⟨[102], 500, 7, 9, false, []⟩
      ⟨[], false, []⟩).1 rfl,
    (hook_resolve_addr_spec (fun _ => 4096) (fun _ => 0) ⟨[102], 500, 7, 9, false, []⟩
      ⟨[], false, []⟩).2 (by decide)⟩

/-- C13 as stated fails: the lookup and `ftrace_set_filter_ip` succeed, the call of
`register_ftrace_function` returns -16 and the rollback call of `ftrace_set_filter_ip`
returns -12. `hook_install` returns the error -16 and the filter is still set. -/
theorem hook_install_rollback_can_fail :
    (hook_install (fun _ => 4096) (fun k => if k = 0 then 0 else if k = 1 then -16 else -12)
        ⟨[102], 500, 0, 0, false, []⟩ ⟨[], false, []⟩).1 = -16 ∧
    (hook_install (fun _ => 4096) (fun k => if k = 0 then 0 else if k = 1 then -16 else -12)
        ⟨[102], 500, 0, 0, false, []⟩ ⟨[], false, []⟩).2.2.filter = [4096] ∧
    ¬ ((hook_install (fun _ => 4096)
          (fun k => if k = 0 then 0 else if k = 1 then -16 else -12)
          ⟨[102], 500, 0, 0, false, []⟩ ⟨[], false, []⟩).1 ≠ 0 →
        (hook_install (fun _ => 4096)
          (fun k => if k = 0 then 0 else if k = 1 then -16 else -12)
          ⟨[102], 500, 0, 0, false, []⟩ ⟨[], false, []⟩).2.2.filter = []) := by
  decide

/-- C13 amended: starting with no filter set and the interception not active, for every
outcome of the external calls, `hook_install` returns 0 exactly when it ends with the
filter set on the resolved address and the interception active; whenever it returns an
error the interception is not active and the error is the one of the failing step
(`-ENOENT` from the lookup, else the result of `ftrace_set_filter_ip`, else the result
of `register_ftrace_function`); and then no filter is set, except that when
`register_ftrace_function` has failed this holds when the rollback call of
`ftrace_set_filter_ip` returns 0. -/
theorem hook_install_outcomes (lookup : List Nat → Nat) (outcome : Nat → Int)
    (hook : ftrace_hook) :
    ((hook_install lookup outcome hook ⟨[], false, []⟩).1 = 0 ↔
      (hook_install lookup outcome hook ⟨[], false, []⟩).2.2.filter
          = [(hook_install lookup outcome hook ⟨[], false, []⟩).2.1.address] ∧
        (hook_install lookup outcome hook ⟨[], false, []⟩).2.2.active = true) ∧
    ((hook_install lookup outcome hook ⟨[], false, []⟩).1 ≠ 0 →
      (hook_install lookup outcome hook ⟨[], false, []⟩).2.2.active = false ∧
      (lookup hook.name = 0 →
        (hook_install lookup outcome hook ⟨[], false, []⟩).1 = -ENOENT ∧
        (hook_install lookup outcome hook ⟨[], false, []⟩).2.2.filter = []) ∧
      (lookup hook.name ≠ 0 → outcome 0 ≠ 0 →
        (hook_install lookup outcome hook ⟨[], false, []⟩).1 = outcome 0 ∧
        (hook_install lookup outcome hook ⟨[], false, []⟩).2.2.filter = []) ∧
      (lookup hook.name ≠ 0 → outcome 0 = 0 →
        (hook_install lookup outcome hook ⟨[], false, []⟩).1 = outcome 1 ∧
        (outcome 2 = 0 →
          (hook_install lookup outcome hook ⟨[], false, []⟩).2.2.filter = []))) := by
  by_cases h0 : lookup hook.name = 0
  · simp [hook_install, hook_resolve_addr, h0, ENOENT]
  · by_cases h1 : outcome 0 = 0
    · by_cases h2 : outcome 1 = 0
      · simp [hook_install, hook_resolve_addr, ftrace_set_filter_ip,
          register_ftrace_function, h0, h1, h2]
      · by_cases h3 : outcome 2 = 0
        · simp [hook_install, hook_resolve_addr, ftrace_set_filter_ip,
            register_ftrace_function, h0, h1, h2, h3]
        · simp [hook_install, hook_resolve_addr, ftrace_set_filter_ip,
            register_ftrace_function, h0, h1, h2, h3]
    · simp [hook_install, hook_resolve_addr, ftrace_set_filter_ip, h0, h1]

theorem hook_install_outcomes_witness :
    (hook_install (fun _ => 4096) (fun k => if k = 1 then -16 else 0)
        ⟨[102], 500, 0, 0, false, []⟩ ⟨[], false, []⟩).1 = -16 ∧
    (hook_install (fun _ => 4096) (fun k => if k = 1 then -16 else 0)
        ⟨[102], 500, 0, 0, false, []⟩ ⟨[], false, []⟩).2.2.filter = [] ∧
    (hook_install (fun _ => 4096) (fun k => if k = 1 then -16 else 0)
        ⟨[102], 500, 0, 0, false, []⟩ ⟨[], false, []⟩).2.2.active = false :=
  have h := (hook_install_outcomes (fun _ => 4096) (fun k => if k = 1 then -16 else 0)
    ⟨[102], 500, 0, 0, false, []⟩).2 (by decide)
  have h3 := h.2.2.2 (by decide) (by decide)
  ⟨h3.1, h3.2 (by decide), h.1⟩

/-- C14: for every register state, call-site address and caller address,
`hook_ftrace_thunk` leaves the register state unchanged when the caller address lies
inside this module, and otherwise sets the saved instruction pointer to the address of
the replacement function and leaves every other register unchanged. -/
theorem hook_ftrace_thunk_spec (within_module : Nat → Bool) (ip parent_ip : Nat)
    (hook : ftrace_hook) (regs : pt_regs) :
    (within_module parent_ip = true →
      hook_ftrace_thunk within_module ip parent_ip hook regs = regs) ∧
    (within_module parent_ip = false →
      (hook_ftrace_thunk within_module ip parent_ip hook regs).ip = hook.func ∧
      (hook_ftrace_thunk within_module ip parent_ip hook regs).others = regs.others) := by
  constructor
  · intro h; simp [hook_ftrace_thunk, h]
  · intro h; simp [hook_ftrace_thunk, h]

theorem hook_ftrace_thunk_spec_witness :
    hook_ftrace_thunk (fun a => decide (1000 ≤ a ∧ a < 2000)) 4096 1500
        ⟨[102], 1200, 4096, 4096, true, []⟩ ⟨4096, [1, 2, 3]⟩ = ⟨4096, [1, 2, 3]⟩ ∧
    (hook_ftrace_thunk (fun a => decide (1000 ≤ a ∧ a < 2000)) 4096 7000
        ⟨[102], 1200, 4096, 4096, true, []⟩ ⟨4096, [1, 2, 3]⟩).ip = 1200 ∧
    (hook_ftrace_thunk (fun a => decide (1000 ≤ a ∧ a < 2000)) 4096 7000
        ⟨[102], 1200, 4096, 4096, true, []⟩ ⟨4096, [1, 2, 3]⟩).others = [1, 2, 3] :=
  ⟨(hook_ftrace_thunk_spec (fun a => decide (1000 ≤ a ∧ a < 2000)) 4096 1500
      ⟨[102], 1200, 4096, 4096, true, []⟩ ⟨4096, [1, 2, 3]⟩).1 (by decide),
    (hook_ftrace_thunk_spec (fun a => decide (1000 ≤ a ∧ a < 2000)) 4096 7000
      ⟨[102], 1200, 4096, 4096, true, []⟩ ⟨4096, [1, 2, 3]⟩).2 (by decide)⟩

/-- C16: for every outcome of the two external calls, `hook_remove` calls
`unregister_ftrace_function` and then `ftrace_set_filter_ip` in remove mode on the
address of the hook, the second call being made whatever the first returned; the
function returns nothing, so no error is propagated. -/
theorem hook_remove_calls (outcome : Nat → Int) (hook : ftrace_hook) (ft : Ftrace) :
    (hook_remove outcome hook ft).calls
      = ft.calls ++ [FtraceCall.unregister_function,
          FtraceCall.set_filter_ip hook.address 1 0] := by
  unfold hook_remove unregister_ftrace_function ftrace_set_filter_ip
  by_cases h1 : outcome ft.calls.length = 0 <;>
    by_cases h2 : outcome (ft.calls.length + 1) = 0 <;>
    simp [h1, h2]

/-! ## Size of a line -/

theorem dec_digits_length_le (k : Nat) :
    ∀ (fuel n : Nat), n < 10 ^ (k + 1) → (dec_digits (fuel + 1) n).length ≤ k + 1 := by
  induction k with
  | zero =>
    intro fuel n hn
    have h : n < 10 := by simpa using hn
    rw [dec_digits]; simp [h]
  | succ k ih =>
    intro fuel n hn
    by_cases h : n < 10
    · rw [dec_digits]; simp [h]
    · have hq : n / 10 < 10 ^ (k + 1) := by
        rw [pow_succ] at hn
        exact Nat.div_lt_of_lt_mul (by omega)
      rw [dec_digits]
      simp only [h, if_false, List.length_append, List.length_singleton]
      cases fuel with
      | zero => simp [dec_digits]
      | succ f => have := ih f (n / 10) hq; omega

theorem dec_digits_length_ge (k : Nat) :
    ∀ (fuel n : Nat), 10 ^ k ≤ n → n < fuel → k + 1 ≤ (dec_digits fuel n).length := by
  induction k with
  | zero =>
    intro fuel n _ hf
    obtain ⟨f, rfl⟩ : ∃ f, fuel = f + 1 := ⟨fuel - 1, by omega⟩
    obtain ⟨d, t, hd, _, _⟩ := dec_digits_cons f n
    rw [hd]; simp
  | succ k ih =>
    intro fuel n hn hf
    obtain ⟨f, rfl⟩ : ∃ f, fuel = f + 1 := ⟨fuel - 1, by omega⟩
    have h10 : 10 ≤ n := by
      have : 10 ^ 1 ≤ 10 ^ (k + 1) := Nat.pow_le_pow_right (by norm_num) (by omega)
      omega
    have h : ¬ n < 10 := by omega
    have hq : 10 ^ k ≤ n / 10 := by
      rw [pow_succ] at hn
      exact (Nat.le_div_iff_mul_le (by norm_num)).2 hn
    have hqf : n / 10 < f := by omega
    rw [dec_digits]
    simp only [h, if_false, List.length_append, List.length_singleton]
    have := ih f (n / 10) hq hqf
    omega

theorem pid_line_length (p : Int) : (pid_line p).length = (fmt_d p).length + 6 := by
  rw [pid_line_eq]; simp

/-- The lines that fit in `message` together with their final NUL are exactly those of
the values from -99999 to 999999. -/
theorem fits_iff (p : Int) : fits p = true ↔ -99999 ≤ p ∧ p ≤ 999999 := by
  have hM : MAX_MESSAGE_SIZE = 13 := by decide
  unfold fits
  rw [decide_eq_true_iff, pid_line_length, hM]
  unfold fmt_d
  by_cases hneg : p < 0
  · rw [if_pos hneg]
    simp only [List.length_cons]
    constructor
    · intro h
      by_contra hc
      have hge : 10 ^ 5 ≤ p.natAbs := by norm_num; omega
      have := dec_digits_length_ge 5 (p.natAbs + 1) p.natAbs hge (by omega)
      omega
    · intro h
      have hlt : p.natAbs < 10 ^ (4 + 1) := by norm_num; omega
      have := dec_digits_length_le 4 p.natAbs p.natAbs hlt
      omega
  · rw [if_neg hneg]
    constructor
    · intro h
      by_contra hc
      have hge : 10 ^ 6 ≤ p.natAbs := by norm_num; omega
      have := dec_digits_length_ge 6 (p.natAbs + 1) p.natAbs hge (by omega)
      omega
    · intro h
      have hlt : p.natAbs < 10 ^ (5 + 1) := by norm_num; omega
      have := dec_digits_length_le 5 p.natAbs p.natAbs hlt
      omega

/-- C17: evaluation at the `pid_t` value 1000000, which `add 1000000` stores in the
registry: its line with the final NUL takes 14 bytes and `message` has
`MAX_MESSAGE_SIZE` = 13, so the line does not fit and `device_read` overruns the array.
The values whose line fits are exactly those from -99999 to 999999. -/
theorem line_does_not_fit_message :
    MAX_MESSAGE_SIZE = 13 ∧
    (INT_MIN ≤ 1000000 ∧ (1000000 : Int) ≤ INT_MAX) ∧
    (pid_line 1000000).length + 1 = 14 ∧
    fits 1000000 = false ∧
    (∀ (hidden_proc : List Int) (offset : Int),
      device_write ⟨fun _ => none, 0, []⟩ hidden_proc (add_cmd 1000000) offset
        = WriteOutcome.oops (hidden_proc ++ [1000000])) ∧
    (∀ (user : UserMem) (len : Nat),
      device_read [1000000] user len 0 = ReadOutcome.overrun user 0) ∧
    (∀ p : Int, fits p = true ↔ -99999 ≤ p ∧ p ≤ 999999) := by
  refine ⟨by decide, by decide, by decide, by decide, ?_, ?_, fits_iff⟩
  · intro hidden_proc offset
    have hw : wrap32 1000000 = 1000000 := by decide
    have hk := kstrtol_fmt_d 1000000 (by decide) (by decide)
    have hc := cstr_at_add_cmd ⟨fun _ => none, 0, []⟩ 1000000
    have hlen : ¬ ((add_cmd 1000000).length < (add_message.length + 1) - 1
        ∧ (add_cmd 1000000).length < (del_message.length + 1) - 1) := by decide
    have htake : (add_cmd 1000000 ++ [0]).take ((add_message.length + 1) - 1) = add_message := by
      decide
    unfold device_write
    simp only [hlen, if_false, htake, if_true, hc, hk, Option.getD_some, get_ppid, hw,
      hide_process]
  · intro user len
    unfold device_read
    simp only [ne_eq, not_true_eq_false, if_false]
    rw [device_read_loop_cons_overrun 1000000 _ _ _ (by decide)]

/-! ## Narrowing of the parsed number -/

/-- C18: evaluation of the write of `add 4294967297` for every registry, in a process
table where PID 1 has parent 0: `kstrtol` accepts the number as a `long`, the
conversion to `pid_t` turns it into 1, and the entries appended are 1 and the parent
of 1, not 4294967297. -/
theorem device_write_narrows_pid (hidden_proc : List Int) (offset : Int) :
    kstrtol [52, 50, 57, 52, 57, 54, 55, 50, 57, 55] = some 4294967297 ∧
    wrap32 4294967297 = 1 ∧
    device_write ⟨fun p => if p = 1 then some 0 else none, 0, []⟩ hidden_proc
        [97, 100, 100, 32, 52, 50, 57, 52, 57, 54, 55, 50, 57, 55] offset
      = WriteOutcome.ret 14 (hidden_proc ++ [1, 0]) 14 := by
  have hk : kstrtol [52, 50, 57, 52, 57, 54, 55, 50, 57, 55] = some 4294967297 := by decide
  have hw : wrap32 4294967297 = 1 := by decide
  refine ⟨hk, hw, ?_⟩
  have hc : cstr_at ⟨fun p => if p = 1 then some 0 else none, 0, []⟩
      ([97, 100, 100, 32, 52, 50, 57, 52, 57, 54, 55, 50, 57, 55] ++ [0])
      (add_message.length + 1) = [52, 50, 57, 52, 57, 54, 55, 50, 57, 55] := by decide
  unfold device_write
  simp only [hc, hk, Option.getD_some, get_ppid, hw, hide_process]
  simp [add_message, del_message]

/-! ## The byte at index 3 -/

theorem cstr_at_congr (env : Env) (b1 b2 : List Nat) (hlen : b1.length = b2.length)
    (hdrop : b1.drop 4 = b2.drop 4) :
    cstr_at env (b1 ++ [0]) 4 = cstr_at env (b2 ++ [0]) 4 := by
  unfold cstr_at
  simp only [List.append_assoc, List.drop_append_eq_append_drop, hlen, hdrop]

theorem take_three_congr (b1 b2 : List Nat) (hlen : b1.length = b2.length)
    (htake : b1.take 3 = b2.take 3) : (b1 ++ [0]).take 3 = (b2 ++ [0]).take 3 := by
  by_cases h : 3 ≤ b1.length
  · rw [List.take_append_of_le_length h, List.take_append_of_le_length (by omega), htake]
  · have e1 : b1.take 3 = b1 := List.take_of_length_le (by omega)
    have e2 : b2.take 3 = b2 := List.take_of_length_le (by omega)
    rw [e1, e2] at htake
    rw [htake]

/-- C19: two payloads of equal length that agree on bytes 0 to 2 and from byte 4 on,
so that they differ at most in the byte at index 3, make `device_write` end in the same
way, with the same return value, registry and offset; and for every registry, when 12
has parent `q`, the six bytes `add 12` and the six bytes `addX12` both leave the
registry followed by 12 and `q`, and when 2 has parent `q2` the five bytes `add12` leave
the registry followed by 2 and `q2`. -/
theorem device_write_ignores_byte_three (env : Env) (hidden_proc : List Int) (offset : Int) :
    (∀ b1 b2 : List Nat, b1.length = b2.length → b1.take 3 = b2.take 3 →
      b1.drop 4 = b2.drop 4 →
      device_write env hidden_proc b1 offset = device_write env hidden_proc b2 offset) ∧
    (∀ q : Int, env.parent 12 = some q →
      device_write env hidden_proc [97, 100, 100, 32, 49, 50] offset
        = WriteOutcome.ret 6 (hidden_proc ++ [12, q]) 6 ∧
      device_write env hidden_proc [97, 100, 100, 88, 49, 50] offset
        = WriteOutcome.ret 6 (hidden_proc ++ [12, q]) 6) ∧
    (∀ q2 : Int, env.parent 2 = some q2 →
      device_write env hidden_proc [97, 100, 100, 49, 50] offset
        = WriteOutcome.ret 5 (hidden_proc ++ [2, q2]) 5) := by
  refine ⟨?_, ?_, ?_⟩
  · intro b1 b2 hlen htake hdrop
    have e3 : cstr_at env (b1 ++ [0]) (add_message.length + 1)
        = cstr_at env (b2 ++ [0]) (add_message.length + 1) := cstr_at_congr env b1 b2 hlen hdrop
    have e4 : cstr_at env (b1 ++ [0]) (del_message.length + 1)
        = cstr_at env (b2 ++ [0]) (del_message.length + 1) := cstr_at_congr env b1 b2 hlen hdrop
    have e1 : (b1 ++ [0]).take ((add_message.length + 1) - 1)
        = (b2 ++ [0]).take ((add_message.length + 1) - 1) := take_three_congr b1 b2 hlen htake
    have e2 : (b1 ++ [0]).take ((del_message.length + 1) - 1)
        = (b2 ++ [0]).take ((del_message.length + 1) - 1) := take_three_congr b1 b2 hlen htake
    unfold device_write
    simp only [hlen, e1, e2, e3, e4]
  · intro q hq
    have hk : kstrtol [49, 50] = some 12 := by decide
    have hw : wrap32 12 = 12 := by decide
    have hc1 : cstr_at env ([97, 100, 100, 32, 49, 50] ++ [0]) (add_message.length + 1)
        = [49, 50] := by simp [cstr_at, add_message]
    have hc2 : cstr_at env ([97, 100, 100, 88, 49, 50] ++ [0]) (add_message.length + 1)
        = [49, 50] := by simp [cstr_at, add_message]
    constructor
    · unfold device_write
      simp only [hc1, hk, Option.getD_some, get_ppid, hw, hq, hide_process]
      simp [add_message, del_message]
    · unfold device_write
      simp only [hc2, hk, Option.getD_some, get_ppid, hw, hq, hide_process]
      simp [add_message, del_message]
  · intro q2 hq
    have hk : kstrtol [50] = some 2 := by decide
    have hw : wrap32 2 = 2 := by decide
    have hc : cstr_at env ([97, 100, 100, 49, 50] ++ [0]) (add_message.length + 1)
        = [50] := by simp [cstr_at, add_message]
    unfold device_write
    simp only [hc, hk, Option.getD_some, get_ppid, hw, hq, hide_process]
    simp [add_message, del_message]

theorem device_write_ignores_byte_three_witness :
    device_write ⟨fun p => if p = 12 then some 1 else none, 0, []⟩ [7]
        [100, 101, 108, 32, 49, 50] 0
      = device_write ⟨fun p => if p = 12 then some 1 else none, 0, []⟩ [7]
        [100, 101, 108, 0, 49, 50] 0 ∧
    device_write ⟨fun p => if p = 12 then some 1 else none, 0, []⟩ [7]
        [97, 100, 100, 32, 49, 50] 0 = WriteOutcome.ret 6 ([7] ++ [12, 1]) 6 ∧
    device_write ⟨fun p => if p = 12 then some 1 else none, 0, []⟩ [7]
        [97, 100, 100, 88, 49, 50] 0 = WriteOutcome.ret 6 ([7] ++ [12, 1]) 6 ∧
    device_write ⟨fun p => if p = 2 then some 1 else none, 0, []⟩ [7]
        [97, 100, 100, 49, 50] 0 = WriteOutcome.ret 5 ([7] ++ [2, 1]) 5 :=
  ⟨(device_write_ignores_byte_three ⟨fun p => if p = 12 then some 1 else none, 0, []⟩ [7] 0).1
      [100, 101, 108, 32, 49, 50] [100, 101, 108, 0, 49, 50] (by decide) (by decide) (by decide),
    ((device_write_ignores_byte_three ⟨fun p => if p = 12 then some 1 else none, 0, []⟩
      [7] 0).2.1 1 (by decide)).1,
    ((device_write_ignores_byte_three ⟨fun p => if p = 12 then some 1 else none, 0, []⟩
      [7] 0).2.1 1 (by decide)).2,
    (device_write_ignores_byte_three ⟨fun p => if p = 2 then some 1 else none, 0, []⟩
      [7] 0).2.2 1 (by decide)⟩

/-! ## The number of calls to the original lookup -/

theorem mem_live_sorted (live : List Int) (x : Int) : x ∈ live_sorted live ↔ x ∈ live := by
  unfold live_sorted
  rw [List.mem_insertionSort, List.mem_dedup]

theorem live_sorted_sorted (live : List Int) : (live_sorted live).Sorted (fun a b => a < b) := by
  unfold live_sorted
  have h1 : ((live.dedup).insertionSort (fun a b => a ≤ b)).Sorted (fun a b => a ≤ b) :=
    List.sorted_insertionSort (fun a b : Int => a ≤ b) _
  have h2 : ((live.dedup).insertionSort (fun a b => a ≤ b)).Nodup :=
    (List.perm_insertionSort (fun a b : Int => a ≤ b) _).nodup_iff.2 (List.nodup_dedup live)
  exact List.Sorted.lt_of_le h1 h2

theorem live_sorted_length (live : List Int) : (live_sorted live).length ≤ live.length := by
  unfold live_sorted
  rw [List.length_insertionSort]
  exact (List.dedup_sublist live).length_le

theorem sorted_dropWhile_ge (n : Int) (l : List Int) (hs : l.Sorted (fun a b => a < b)) :
    ∀ x ∈ l.dropWhile (fun p => decide (p < n)), n ≤ x := by
  induction l with
  | nil => simp
  | cons a t ih =>
    have hs2 := List.sorted_cons.1 hs
    by_cases ha : a < n
    · simpa [List.dropWhile_cons, ha] using ih hs2.2
    · intro x hx
      simp only [List.dropWhile_cons, ha, decide_False, Bool.false_eq_true, if_false,
        List.mem_cons] at hx
      rcases hx with rfl | hx
      · omega
      · have := hs2.1 x hx; omega

/-- With the live PIDs in increasing order split into those below `m` and the rest, the
original lookup at `m` yields the first of the rest. -/
theorem real_eq_head (live : List Int) (real : Int → Option Int)
    (hreal : ∀ m, LeastGe (fun p => p ∈ live) m (real m))
    (pre S : List Int) (m : Int) (hsplit : live_sorted live = pre ++ S)
    (hpre : ∀ x ∈ pre, x < m) (hS : ∀ x ∈ S, m ≤ x) : real m = S.head? := by
  have hs := live_sorted_sorted live
  rw [hsplit] at hs
  have hm := hreal m
  cases S with
  | nil =>
    cases hr : real m with
    | none => rfl
    | some q =>
      rw [hr] at hm
      simp only [LeastGe] at hm
      have hq : q ∈ pre ++ [] := by rw [← hsplit]; exact (mem_live_sorted live q).2 hm.1
      have := hpre q (by simpa using hq)
      omega
  | cons p S2 =>
    have hp : p ∈ live := (mem_live_sorted live p).1 (by rw [hsplit]; simp)
    have hmp : m ≤ p := hS p (by simp)
    cases hr : real m with
    | none =>
      rw [hr] at hm
      simp only [LeastGe] at hm
      have := hm p hp
      omega
    | some q =>
      rw [hr] at hm
      simp only [LeastGe] at hm
      obtain ⟨hq1, hq2, hq3⟩ := hm
      have hqp : q ≤ p := hq3 p hp hmp
      have hq : q ∈ pre ++ p :: S2 := by rw [← hsplit]; exact (mem_live_sorted live q).2 hq1
      have hs2 : (p :: S2).Sorted (fun a b => a < b) :=
        List.Pairwise.sublist (List.sublist_append_right pre (p :: S2)) hs
      rcases List.mem_append.1 hq with h | h
      · have := hpre q h; omega
      · rcases List.mem_cons.1 h with h | h
        · simp [h]
        · have := (List.sorted_cons.1 hs2).1 q h; omega

/-- The loop of `hook_find_ge_pid` over the remaining live PIDs in increasing order: it
makes one more call for each leading PID that is hidden and ends on the first that is
not. -/
theorem hook_find_ge_pid_loop_sorted (live : List Int) (real : Int → Option Int)
    (hidden_proc : List Int)
    (hreal : ∀ m, LeastGe (fun p => p ∈ live) m (real m))
    (hrange : ∀ p ∈ live, INT_MIN ≤ p ∧ p < INT_MAX) :
    ∀ (S pre : List Int) (m : Int) (fuel calls : Nat),
      live_sorted live = pre ++ S → (∀ x ∈ pre, x < m) → (∀ x ∈ S, m ≤ x) →
      S.length < fuel →
      hook_find_ge_pid_loop real hidden_proc fuel (real m) calls
        = some ((S.dropWhile (fun p => decide (p ∈ hidden_proc))).head?,
            calls + (S.takeWhile (fun p => decide (p ∈ hidden_proc))).length) := by
  intro S
  induction S with
  | nil =>
    intro pre m fuel calls hsplit hpre hS hfuel
    obtain ⟨f, rfl⟩ : ∃ f, fuel = f + 1 := ⟨fuel - 1, by omega⟩
    rw [real_eq_head live real hreal pre [] m hsplit hpre hS]
    simp [hook_find_ge_pid_loop]
  | cons p S2 ih =>
    intro pre m fuel calls hsplit hpre hS hfuel
    obtain ⟨f, rfl⟩ : ∃ f, fuel = f + 1 := ⟨fuel - 1, by simp at hfuel; omega⟩
    rw [real_eq_head live real hreal pre (p :: S2) m hsplit hpre hS]
    have hp : p ∈ live := (mem_live_sorted live p).1 (by rw [hsplit]; simp)
    have hmp : m ≤ p := hS p (by simp)
    by_cases hh : p ∈ hidden_proc
    · have hhid : is_hidden_proc hidden_proc p = true := (is_hidden_proc_iff _ _).2 hh
      have hw : wrap32 (p + 1) = p + 1 := by
        have := hrange p hp
        apply wrap32_of_range <;> (unfold INT_MIN INT_MAX at *; omega)
      have hs := live_sorted_sorted live
      rw [hsplit] at hs
      have hs2 : (p :: S2).Sorted (fun a b => a < b) :=
        List.Pairwise.sublist (List.sublist_append_right pre (p :: S2)) hs
      have hstep := ih (pre ++ [p]) (p + 1) f (calls + 1)
        (by rw [hsplit]; simp)
        (by
          intro x hx
          rcases List.mem_append.1 hx with h | h
          · have := hpre x h; omega
          · simp at h; omega)
        (by
          intro x hx
          have := (List.sorted_cons.1 hs2).1 x hx
          omega)
        (by simp at hfuel; omega)
      simp only [List.head?_cons, hook_find_ge_pid_loop, hhid, if_true, hw, hstep,
        List.dropWhile_cons, List.takeWhile_cons, hh, decide_True, List.length_cons]
      congr 2
      omega
    · have hhid : is_hidden_proc hidden_proc p = false := (is_hidden_proc_false_iff _ _).2 hh
      simp [hook_find_ge_pid_loop, hhid, List.dropWhile_cons, List.takeWhile_cons, hh]

/-- C15: when the original lookup returns the least live PID that is at least its
argument (or none) and live PIDs are `int` values below `INT_MAX`, for every registry
and every `n` the loop of `hook_find_ge_pid` ends, and the function makes exactly
`1 + k` calls to the original lookup, `k` being the number of consecutive live PIDs,
from the first live PID that is at least `n`, that are members of the registry; it
returns the live PID that follows them, if any. -/
theorem hook_find_ge_pid_call_count (live : List Int) (real : Int → Option Int)
    (hidden_proc : List Int) (n : Int) (fuel : Nat)
    (hreal : ∀ m, LeastGe (fun p => p ∈ live) m (real m))
    (hrange : ∀ p ∈ live, INT_MIN ≤ p ∧ p < INT_MAX)
    (hfuel : live.length < fuel) :
    hook_find_ge_pid_calls real hidden_proc fuel n
      = some (first_visible live hidden_proc n, 1 + (hidden_run live hidden_proc n).length) := by
  have hlen : ((live_sorted live).dropWhile (fun p => decide (p < n))).length < fuel := by
    have h1 := (List.dropWhile_sublist (fun p => decide (p < n))
      (l := live_sorted live)).length_le
    have h2 := live_sorted_length live
    omega
  have h := hook_find_ge_pid_loop_sorted live real hidden_proc hreal hrange
    ((live_sorted live).dropWhile (fun p => decide (p < n)))
    ((live_sorted live).takeWhile (fun p => decide (p < n))) n fuel 1
    (List.takeWhile_append_dropWhile _ _).symm
    (by
      intro x hx
      have := List.mem_takeWhile_imp hx
      simpa using this)
    (sorted_dropWhile_ge n _ (live_sorted_sorted live))
    hlen
  unfold hook_find_ge_pid_calls first_visible hidden_run
  exact h

theorem hook_find_ge_pid_call_count_witness :
    hidden_run [9, 3, 5, 6, 5] [5, 6] 4 = [5, 6] ∧
    hook_find_ge_pid_calls (find_ge_pid [9, 3, 5, 6, 5]) [5, 6] 6 4
      = some (first_visible [9, 3, 5, 6, 5] [5, 6] 4,
          1 + (hidden_run [9, 3, 5, 6, 5] [5, 6] 4).length) :=
  ⟨by decide,
    hook_find_ge_pid_call_count [9, 3, 5, 6, 5] (find_ge_pid [9, 3, 5, 6, 5]) [5, 6] 4 6
      (find_ge_pid_spec [9, 3, 5, 6, 5]) (by decide) (by decide)⟩

end Hideproc
